import Mathlib

/-!
# Verification of the critbit89 crit-bit tree (final variant of `critbit.c`)

Shallow embedding of the code in `src/critbit.c` (the co-allocated
node/leaf variant, lines 1-530).  Keys are byte strings (`List ℕ` with
each byte in `1..255`; the terminator byte `0` may not occur inside a
key).  The heap is modelled by decorating the tree with buffer
identifiers: every leaf's backing buffer holds one spare internal-node
cell, identified by the same buffer id, so an internal node carrying id
`i` lives in the spare cell of the buffer whose key is the leaf with
id `i`.  The `otherbits` field of a cell that is currently linked into
the tree is stored at the corresponding `mnode`; the `otherbits` field
of an unlinked (vacant) cell is stored in a side map `vac`, mirroring
the `UNUSED_NODE` marker protocol of the source.
-/

namespace Critbit

/-- `TYPE_LEAF` / `TYPE_NODE` / `TYPE_EMPTY` tags are implicit in the
inductive structure below.  `UNUSED_NODE` marker value (critbit.c line 30). -/
def UNUSED_NODE : ℕ := 1

/-- `PREFIX_MASK` (critbit.c line 28): the `otherbits` value of a prefix node. -/
def PREFIX_MASK : ℕ := 255

/-- A key is a list of byte values.  `ValidKey` says every byte is a
non-terminator byte: `0 < c < 256` (keys are terminator-free C strings). -/
def ValidKey (k : List ℕ) : Prop := ∀ c ∈ k, 0 < c ∧ c < 256

instance (k : List ℕ) : Decidable (ValidKey k) := by
  unfold ValidKey; infer_instance

/-- Byte of `k` at offset `b`; reading past the end yields the conceptual
zero byte (the code never reads past the end: every access is guarded by
`byte < ulen`, and out-of-range offsets take direction 0, which coincides
with the bit value of a zero byte). -/
def getByte (k : List ℕ) (b : ℕ) : ℕ := k.getD b 0

/-- The branch-free bit test of the source:
`direction = (1 + (otherbits | c)) >> 8`. -/
def dirBit (ob c : ℕ) : ℕ := (1 + (ob ||| c)) >>> 8

/-- The direction function as used by every descent loop in the source
(e.g. critbit.c lines 174-181):

```
direction = 0;
if (p->byte < ulen) {
    cb_byte_t c = ubytes[p->byte];
    direction = (1 + (p->otherbits | c)) >> 8;
}
```
-/
def dirC (b ob : ℕ) (k : List ℕ) : ℕ :=
  if b < k.length then dirBit ob (getByte k b) else 0

/-- A (sub)tree, with buffer ids recorded.  `mleaf i k` is the key `k`
stored in buffer `i`; `mnode i b ob l r` is an internal node living in
the spare cell of buffer `i`, with `byte = b`, `otherbits = ob`, and
children `l` (`child[0]`) and `r` (`child[1]`). -/
inductive MTree : Type
  | mleaf (id : ℕ) (key : List ℕ)
  | mnode (id : ℕ) (byte : ℕ) (otherbits : ℕ) (l r : MTree)
  deriving Repr, DecidableEq

namespace MTree

/-- Keys of all leaves, in left-to-right (depth-first) order. -/
def keys : MTree → List (List ℕ)
  | mleaf _ k => [k]
  | mnode _ _ _ l r => keys l ++ keys r

/-- The leaves (buffer id, key) in left-to-right order. -/
def leaves : MTree → List (ℕ × List ℕ)
  | mleaf i k => [(i, k)]
  | mnode _ _ _ l r => leaves l ++ leaves r

/-- Buffer ids of all leaves, in left-to-right order. -/
def leafIds : MTree → List ℕ
  | mleaf i _ => [i]
  | mnode _ _ _ l r => leafIds l ++ leafIds r

/-- Buffer ids whose spare cells are linked into the tree as internal nodes. -/
def nodeIds : MTree → List ℕ
  | mleaf _ _ => []
  | mnode i _ _ l r => i :: (nodeIds l ++ nodeIds r)

/-- The `otherbits` field of the internal node living in cell `i`, if that
cell is linked into the tree. -/
def findNodeOb : MTree → ℕ → Option ℕ
  | mleaf _ _, _ => none
  | mnode i _ ob l r, j =>
    if i = j then some ob else (findNodeOb l j).orElse fun _ => findNodeOb r j

/-- The key stored in buffer `i`, if that buffer is in the heap. -/
def keyAt : MTree → ℕ → Option (List ℕ)
  | mleaf i k, j => if i = j then some k else none
  | mnode _ _ _ l r, j => (keyAt l j).orElse fun _ => keyAt r j

/-- The descent loop shared by `cb_tree_contains_i`, `cb_tree_insert_node`
and `cb_tree_delete_i`: follow the direction function to a leaf, returning
the leaf's buffer id and key. -/
def descLeaf : MTree → List ℕ → ℕ × List ℕ
  | mleaf i k, _ => (i, k)
  | mnode _ b ob l r, u =>
    if dirC b ob u = 1 then descLeaf r u else descLeaf l u

/-- Ids of the internal nodes visited by the descent for key `u`
(the root-to-leaf search path of `u`). -/
def descPath : MTree → List ℕ → List ℕ
  | mleaf _ _, _ => []
  | mnode i b ob l r, u =>
    i :: (if dirC b ob u = 1 then descPath r u else descPath l u)

end MTree

open MTree

/-- Memory state of a tree: `tree = none` is the `TYPE_EMPTY` root;
`vac i` is the `otherbits` field currently stored in the spare cell of
buffer `i` whenever that cell is not linked into the tree (a linked
cell's `otherbits` is the `ob` field of the corresponding `mnode`). -/
structure MState : Type where
  tree : Option MTree
  vac : ℕ → ℕ

/-- Read the `otherbits` field of the spare cell of buffer `i`
(`lnode->otherbits` in the source): the linked node's value if the cell
is in use, the vacancy map's value otherwise. -/
def cellOb (M : MState) (i : ℕ) : ℕ :=
  match M.tree with
  | none => M.vac i
  | some t => (findNodeOb t i).getD (M.vac i)

/-- `cb_tree_contains_i` (critbit.c lines 157-186): empty trees contain
nothing; otherwise descend to a leaf and compare byte-for-byte
(length and content). -/
def cbContains (M : MState) (u : List ℕ) : Bool :=
  match M.tree with
  | none => false
  | some t => (descLeaf t u).2 = u

/-- `errno` value returned by `cb_tree_insert` on allocation failure. -/
def ENOMEM : ℕ := 12

/-- Allocator events, in order of occurrence inside one API call.
`alloc` is a call to the tree's pluggable `malloc`, `pfree` a call to the
tree's pluggable `free`, `cfree` a call to the C library's `free`. -/
inductive Ev : Type
  | alloc (id : ℕ)
  | pfree (id : ℕ)
  | cfree (id : ℕ)
  deriving Repr, DecidableEq

/-- The smear-and-invert pipeline of `cb_tree_insert_node` applied to the
XOR of the two differing bytes (critbit.c lines 255-261): smear the top
set bit downward, then `(newotherbits ^ 255) | (newotherbits >> 1)` keeps
every bit except the most significant set one. -/
def maskOfXor (d0 : ℕ) : ℕ :=
  let d1 := d0 ||| (d0 >>> 1)
  let d2 := d1 ||| (d1 >>> 2)
  let d3 := d2 ||| (d2 >>> 4)
  (d3 ^^^ 255) ||| (d3 >>> 1)

/-- `newotherbits` as computed from the two differing bytes. -/
def critMask (x y : ℕ) : ℕ := maskOfXor (x ^^^ y)

/-- First index `i` with `i < fuel` (counting from `start`, scanning
`start, start+1, ...`) where the bytes of `a` and `b` differ: the
comparison loop of `cb_tree_insert_node` (critbit.c lines 253-266). -/
def firstDiffFrom (a b : List ℕ) : ℕ → ℕ → Option ℕ
  | _, 0 => none
  | i, fuel + 1 =>
    if getByte a i ≠ getByte b i then some i else firstDiffFrom a b (i + 1) fuel

/-- The increment-and-mask transform of `otherbits` values used by the
splice walk (critbit.c lines 281-286 and 294): `(m + 1) & 0xff` maps the
prefix mask to 0, so that prefix nodes sort before every critical-bit
node at the same offset. -/
def tb (m : ℕ) : ℕ := (m + 1) &&& 255

/-- The node built for the new key (critbit.c lines 272-275 and 307-308):
`child[1 - newdirection]` is the new leaf, `child[newdirection]` receives
whatever child reference sat at the splice point. -/
def mkNewNode (f nb nob nd : ℕ) (u : List ℕ) (sub : MTree) : MTree :=
  if nd = 1 then mnode f nb nob (mleaf f u) sub
  else mnode f nb nob sub (mleaf f u)

/-- The splice walk of `cb_tree_insert_node` (critbit.c lines 277-310):
descend following the direction function, but stop as soon as the current
node's `(byte, otherbits)` would sort after the new node's; `nob'` is the
increment-and-masked `newotherbits` used for the comparison
(`(newotherbits + 1) & 0xff`, which maps the prefix mask `0xff` to `0`). -/
def splice (t : MTree) (u : List ℕ) (f nb nob nd nob' : ℕ) : MTree :=
  match t with
  | mleaf _ _ => mkNewNode f nb nob nd u t
  | mnode i b ob l r =>
    if nb < b ∨ (b = nb ∧ nob' < tb ob) then mkNewNode f nb nob nd u t
    else if dirC b ob u = 1 then mnode i b ob l (splice r u f nb nob nd nob')
    else mnode i b ob (splice l u f nb nob nd nob') r

/-- `cb_tree_insert_node` (critbit.c lines 194-317) acting on the state
of a tree whose freshly allocated buffer has id `f`: returns the result
code (0 inserted, 1 already present), the new tree and the new vacancy
map.  In the empty-tree case the spare cell of the new buffer is cleared
and marked `UNUSED_NODE` (lines 206-211); in the splice case the spare
cell of buffer `f` becomes the new internal node.  (The C code leaves
`newdirection` uninitialized when the key lengths are equal; it is only
read after the comparison loop found a differing byte, which sets it, so
the default 0 below is never observable.) -/
def cbInsertNode (t? : Option MTree) (vac : ℕ → ℕ) (u : List ℕ) (f : ℕ) :
    ℕ × Option MTree × (ℕ → ℕ) :=
  match t? with
  | none => (0, some (mleaf f u), Function.update vac f UNUSED_NODE)
  | some t =>
    let ulen := u.length
    let L := (descLeaf t u).2
    let llen := L.length
    let cdn : ℕ × ℕ × ℕ :=
      if llen < ulen then (llen, 0, PREFIX_MASK)
      else if ulen < llen then (ulen, 1, PREFIX_MASK)
      else (ulen, 0, 0)
    let clen := cdn.1
    match firstDiffFrom L u 0 clen with
    | some p =>
      let nob := critMask (getByte L p) (getByte u p)
      let nd := dirBit nob (getByte L p)
      (0, some (splice t u f p nob nd (tb nob)), vac)
    | none =>
      if cdn.2.2 = 0 then (1, some t, vac)
      else (0, some (splice t u f clen PREFIX_MASK cdn.2.1 (tb PREFIX_MASK)), vac)

/-- `cb_tree_insert` (critbit.c lines 319-342): allocate one buffer
(node cell plus key bytes) through the pluggable allocator; on failure
return `ENOMEM` at once.  If the key was already present, the buffer is
released with the C library's `free` (line 338) and 1 is returned.
`f? = none` models the allocator call failing; `f? = some f` models it
returning a fresh buffer `f`. -/
def cbInsert (M : MState) (u : List ℕ) (f? : Option ℕ) : ℕ × MState × List Ev :=
  match f? with
  | none => (ENOMEM, M, [])
  | some f =>
    let r := cbInsertNode M.tree M.vac u f
    if r.1 ≠ 0 then (r.1, ⟨r.2.1, r.2.2⟩, [Ev.alloc f, Ev.cfree f])
    else (0, ⟨r.2.1, r.2.2⟩, [Ev.alloc f])

/-- Collapse the parent of the leaf reached by descending with `u`
(critbit.c lines 396-397): the surviving sibling is promoted into the
parent's slot.  Only ever applied below the root-node case, where the
descent is known to reach the leaf holding `u`. -/
def collapseQ : MTree → List ℕ → MTree
  | mleaf i k, _ => mleaf i k
  | mnode i b ob l r, u =>
    if dirC b ob u = 1 then
      match r with
      | mleaf _ _ => l
      | mnode j c oc rl rr => mnode i b ob l (collapseQ (mnode j c oc rl rr) u)
    else
      match l with
      | mleaf _ _ => r
      | mnode j c oc ll lr => mnode i b ob (collapseQ (mnode j c oc ll lr) u) r

/-- The bookkeeping of the deletion descent (critbit.c lines 367-380):
the id of the deepest internal node `q` on the search path of `u`, and
the id and key of the leaf reached through it. -/
def qInfo : MTree → List ℕ → ℕ × ℕ × List ℕ
  | mleaf i k, _ => (0, i, k)
  | mnode i b ob l r, u =>
    if dirC b ob u = 1 then
      match r with
      | mleaf j k => (i, j, k)
      | mnode j c oc rl rr => qInfo (mnode j c oc rl rr) u
    else
      match l with
      | mleaf j k => (i, j, k)
      | mnode j c oc ll lr => qInfo (mnode j c oc ll lr) u

/-- The salvage re-descent of `cb_tree_delete_i` (critbit.c lines
402-425): re-descend from the root with `u`'s bytes looking for the child
slot that points at the still-in-use cell `idU` (the cell co-allocated
with the deleted leaf); when found, collapse the parent `q` of the
deleted leaf inside, copy the cell's node content into `q`'s cell (id
`idQ`) and repoint the slot there.  `none` models the re-descent running
off to a leaf, in which case the `assert` at line 424 fires. -/
def salv : MTree → List ℕ → ℕ → ℕ → Option MTree
  | mleaf _ _, _, _, _ => none
  | mnode i b ob l r, u, idU, idQ =>
    if i = idU then
      some (if dirC b ob u = 1 then mnode idQ b ob l (collapseQ r u)
            else mnode idQ b ob (collapseQ l u) r)
    else
      if dirC b ob u = 1 then (salv r u idU idQ).map (fun r' => mnode i b ob l r')
      else (salv l u idU idQ).map (fun l' => mnode i b ob l' r)

/-- `cb_tree_delete` = `cb_tree_delete_i` (critbit.c lines 344-433) plus
the buffer release of the wrapper (lines 436-451, which frees the leaf's
buffer with the C library's `free`).  Returns `none` when the salvage
assertion fails (the process aborts), otherwise the result code
(0 deleted, 1 not found), the new state and the allocator events. -/
def cbDelete (M : MState) (u : List ℕ) : Option (ℕ × MState × List Ev) :=
  match M.tree with
  | none => some (1, M, [])
  | some (mleaf i k) =>
    if k ≠ u then some (1, M, [])
    else if cellOb M i = UNUSED_NODE then some (0, ⟨none, M.vac⟩, [Ev.cfree i])
    else none
  | some (mnode i0 b0 ob0 l0 r0) =>
    let t := mnode i0 b0 ob0 l0 r0
    let info := qInfo t u
    if info.2.2 ≠ u then some (1, M, [])
    else if info.2.1 = info.1 ∨ cellOb M info.2.1 = UNUSED_NODE then
      some (0, ⟨some (collapseQ t u), Function.update M.vac info.1 UNUSED_NODE⟩,
        [Ev.cfree info.2.1])
    else
      (salv t u info.2.1 info.1).map fun t' => (0, ⟨some t', M.vac⟩, [Ev.cfree info.2.1])

/-- The entry-point search of `cb_tree_walk_prefixed_i` (critbit.c lines
486-498): descend, remembering as `entry` the child followed at the last
node whose `byte` lay inside the prefix; return the entry subtree and the
reached leaf's key. -/
def walkDesc : MTree → List ℕ → MTree → MTree × List ℕ
  | mleaf _ k, _, entry => (entry, k)
  | mnode _ b ob l r, p, entry =>
    if b < p.length then
      if dirBit ob (getByte p b) = 1 then walkDesc r p r else walkDesc l p l
    else walkDesc l p entry

/-- `cb_tree_walk_prefixed_i` (critbit.c lines 465-508) with a callback
that always continues: the list of keys passed to the callback, in visit
order (`cbt_traverse_prefixed`, lines 67-86, is a left-to-right
depth-first traversal of the entry subtree). -/
def walkM (M : MState) (p : List ℕ) : List (List ℕ) :=
  match M.tree with
  | none => []
  | some t =>
    let ek := walkDesc t p t
    if ek.2.length < p.length then []
    else if ¬ p.isPrefixOf ek.2 then []
    else keys ek.1

/-- Freshness of a buffer id: `malloc` never returns a block that
overlaps a live allocation. -/
def FreshId (M : MState) (f : ℕ) : Prop :=
  match M.tree with
  | none => True
  | some t => f ∉ leafIds t

/-- A fresh buffer id for the next allocation: one past the largest live
buffer id (the allocator never returns a block overlapping a live one). -/
def freshOf (M : MState) : ℕ :=
  match M.tree with
  | none => 0
  | some t => (leafIds t).foldr max 0 + 1

/-- Insert a list of keys in order into a state, each call served by a
fresh allocation. -/
def insAll : MState → List (List ℕ) → MState
  | M, [] => M
  | M, u :: us => insAll (cbInsert M u (some (freshOf M))).2.1 us

/-- States reachable from a tree created empty (`cb_tree_make`) by
`cb_tree_insert` (with any allocator outcome) and `cb_tree_delete` with
valid (terminator-free, byte-valued) keys. -/
inductive Reach : MState → Prop
  | empty (v : ℕ → ℕ) : Reach ⟨none, v⟩
  | ins {M : MState} {u : List ℕ} {f : ℕ} {r : ℕ} {M' : MState} {ev : List Ev} :
      Reach M → ValidKey u → FreshId M f →
      cbInsert M u (some f) = (r, M', ev) → Reach M'
  | del {M : MState} {u : List ℕ} {r : ℕ} {M' : MState} {ev : List Ev} :
      Reach M → ValidKey u →
      cbDelete M u = some (r, M', ev) → Reach M'

/-! ## Well-formedness invariant -/

/-- The eight legal critical-bit masks: `255 - 2^i` for a bit index `i`. -/
def validCrit (m : ℕ) : Prop := m ∈ [254, 253, 251, 247, 239, 223, 191, 127]

instance (m : ℕ) : Decidable (validCrit m) := by unfold validCrit; infer_instance

/-- A legal `otherbits` descriptor: a critical-bit mask or the prefix marker. -/
def validMask (m : ℕ) : Prop := validCrit m ∨ m = PREFIX_MASK

instance (m : ℕ) : Decidable (validMask m) := by unfold validMask; infer_instance

/-- The total order on `(byte, otherbits)` descriptors used by the splice
walk: offset primary, transformed mask secondary. -/
def posLt (p q : ℕ × ℕ) : Prop := p.1 < q.1 ∨ (p.1 = q.1 ∧ tb p.2 < tb q.2)

instance (p q : ℕ × ℕ) : Decidable (posLt p q) := by unfold posLt; infer_instance

/-- `u` and `v` take the same direction at every legal descriptor
strictly below `bm` in the splice order. -/
def Agree (bm : ℕ × ℕ) (u v : List ℕ) : Prop :=
  ∀ b' m', validMask m' → posLt (b', m') bm → dirC b' m' u = dirC b' m' v

/-- The structural/order invariant of a crit-bit tree: every node carries
a legal descriptor, keys of `child[0]` take direction 0 there and keys of
`child[1]` direction 1, and all keys below a node agree on every
descriptor that sorts before the node's own. -/
def Inv : MTree → Prop
  | mleaf _ _ => True
  | mnode _ b ob l r =>
    validMask ob ∧
    (∀ k ∈ keys l, dirC b ob k = 0) ∧
    (∀ k ∈ keys r, dirC b ob k = 1) ∧
    (∀ u ∈ keys l ++ keys r, ∀ v ∈ keys l ++ keys r, Agree (b, ob) u v) ∧
    Inv l ∧ Inv r

/-- Full well-formedness of a non-empty memory state: valid keys,
distinct buffers, node cells borrowed injectively from live buffers,
vacant cells marked `UNUSED_NODE`, the order invariant, and every in-use
cell lying on the search path of its own buffer's key. -/
def goodTree (t : MTree) (vac : ℕ → ℕ) : Prop :=
  (∀ k ∈ keys t, ValidKey k) ∧
  (leafIds t).Nodup ∧
  (nodeIds t).Nodup ∧
  (∀ i ∈ nodeIds t, i ∈ leafIds t) ∧
  (∀ i ∈ leafIds t, i ∉ nodeIds t → vac i = UNUSED_NODE) ∧
  Inv t ∧
  (∀ i ∈ nodeIds t, ∀ k, keyAt t i = some k → i ∈ descPath t k)

/-- Well-formedness of a memory state. -/
def WFS (M : MState) : Prop :=
  match M.tree with
  | none => True
  | some t => goodTree t M.vac

/-- The keys stored in a memory state, in depth-first order. -/
def treeKeys (M : MState) : List (List ℕ) :=
  match M.tree with
  | none => []
  | some t => keys t

/-- The `(byte, otherbits)` descriptor at the root of a subtree, if it
is an internal node. -/
def rootPos : MTree → Option (ℕ × ℕ)
  | mleaf _ _ => none
  | mnode _ b ob _ _ => some (b, ob)

/-- Strict increase of `(offset, divergence)` descriptors along every
root-to-leaf path, in the splice order (offset primary; at equal offset
the transformed mask `tb`, under which the prefix marker sorts before
every critical-bit descriptor and more significant bit positions sort
before less significant ones). -/
def PathOrder : MTree → Prop
  | mleaf _ _ => True
  | mnode _ b ob l r =>
    (∀ p ∈ rootPos l, posLt (b, ob) p) ∧ (∀ p ∈ rootPos r, posLt (b, ob) p) ∧
    PathOrder l ∧ PathOrder r

/-! ## Byte and bit arithmetic -/

set_option maxRecDepth 100000

theorem getByte_lt {k : List ℕ} (hk : ValidKey k) (b : ℕ) : getByte k b < 256 := by
  unfold getByte
  rcases Nat.lt_or_ge b k.length with h | h
  · rw [List.getD_eq_getElem _ _ h]
    exact (hk _ (List.getElem_mem h)).2
  · rw [List.getD_eq_default _ _ h]; norm_num

theorem getByte_pos {k : List ℕ} (hk : ValidKey k) {b : ℕ} (hb : b < k.length) :
    0 < getByte k b := by
  unfold getByte
  rw [List.getD_eq_getElem _ _ hb]
  exact (hk _ (List.getElem_mem hb)).1

theorem shift8_eq {x : ℕ} (h : x ≤ 255) : (1 + x) >>> 8 = if x = 255 then 1 else 0 := by
  rw [Nat.shiftRight_eq_div_pow]
  rcases eq_or_lt_of_le h with rfl | h'
  · decide
  · rw [if_neg (Nat.ne_of_lt h'), Nat.div_eq_of_lt (by omega)]

theorem lor_le_255 {a b : ℕ} (ha : a ≤ 255) (hb : b ≤ 255) : a ||| b ≤ 255 := by
  have h : a ||| b < 2 ^ 8 := Nat.or_lt_two_pow (by omega) (by omega)
  omega

theorem dirBit_le_one {ob c : ℕ} (hob : ob ≤ 255) (hc : c ≤ 255) : dirBit ob c ≤ 1 := by
  unfold dirBit
  rw [shift8_eq (lor_le_255 hob hc)]
  split <;> omega

theorem lor255_eq : ∀ c < 256, 255 ||| c = 255 := by decide

theorem dirBit_prefMask {c : ℕ} (hc : c ≤ 255) : dirBit PREFIX_MASK c = 1 := by
  unfold dirBit PREFIX_MASK
  rw [lor255_eq c (by omega)]
  decide

theorem dirBit_crit : ∀ i < 8, ∀ c < 256,
    dirBit (255 - 2 ^ i) c = if c.testBit i then 1 else 0 := by decide

theorem validCrit_cases {m : ℕ} (h : validCrit m) : ∃ i < 8, m = 255 - 2 ^ i := by
  simp only [validCrit, List.mem_cons, List.not_mem_nil, or_false] at h
  rcases h with rfl | rfl | rfl | rfl | rfl | rfl | rfl | rfl
  · exact ⟨0, by norm_num⟩
  · exact ⟨1, by norm_num⟩
  · exact ⟨2, by norm_num⟩
  · exact ⟨3, by norm_num⟩
  · exact ⟨4, by norm_num⟩
  · exact ⟨5, by norm_num⟩
  · exact ⟨6, by norm_num⟩
  · exact ⟨7, by norm_num⟩

theorem validMask_le_255 {m : ℕ} (h : validMask m) : m ≤ 255 := by
  rcases h with h | rfl
  · rcases validCrit_cases h with ⟨i, _, rfl⟩
    have : 2 ^ i ≥ 1 := Nat.one_le_two_pow
    omega
  · decide

theorem maskOfXor_valid : ∀ d < 256, d ≠ 0 → validCrit (maskOfXor d) := by decide

theorem maskOfXor_testBit : ∀ d < 256, ∀ i < 8, d ≠ 0 →
    maskOfXor d = 255 - 2 ^ i → d.testBit i = true := by decide

theorem maskOfXor_high : ∀ d < 256, ∀ i < 8, ∀ j < 8,
    maskOfXor d = 255 - 2 ^ i → i < j → d.testBit j = false := by decide

theorem tb_prefMask : tb PREFIX_MASK = 0 := by decide

theorem tb_crit : ∀ i < 8, tb (255 - 2 ^ i) = 256 - 2 ^ i := by decide

theorem tb_lt_of_crit {m : ℕ} (h : validCrit m) : 0 < tb m := by
  rcases validCrit_cases h with ⟨i, hi, rfl⟩
  have := tb_crit i hi
  have : 2 ^ i < 256 := by
    calc 2 ^ i < 2 ^ 8 := Nat.pow_lt_pow_right (by omega) hi
    _ = 256 := by norm_num
  omega

theorem tb_inj {a b : ℕ} (ha : validMask a) (hb : validMask b) (h : tb a = tb b) :
    a = b := by
  have ha' : a = 254 ∨ a = 253 ∨ a = 251 ∨ a = 247 ∨ a = 239 ∨ a = 223 ∨ a = 191 ∨
      a = 127 ∨ a = 255 := by
    rcases ha with ha | ha
    · simp only [validCrit, List.mem_cons, List.not_mem_nil, or_false] at ha; tauto
    · simp [PREFIX_MASK] at ha; tauto
  have hb' : b = 254 ∨ b = 253 ∨ b = 251 ∨ b = 247 ∨ b = 239 ∨ b = 223 ∨ b = 191 ∨
      b = 127 ∨ b = 255 := by
    rcases hb with hb | hb
    · simp only [validCrit, List.mem_cons, List.not_mem_nil, or_false] at hb; tauto
    · simp [PREFIX_MASK] at hb; tauto
  rcases ha' with rfl|rfl|rfl|rfl|rfl|rfl|rfl|rfl|rfl <;>
    rcases hb' with rfl|rfl|rfl|rfl|rfl|rfl|rfl|rfl|rfl <;> revert h <;> decide

theorem posLt_trans {p q r : ℕ × ℕ} (h1 : posLt p q) (h2 : posLt q r) : posLt p r := by
  unfold posLt at *
  omega

theorem posLt_irrefl (p : ℕ × ℕ) : ¬ posLt p p := by
  unfold posLt; omega

theorem posLt_total {b1 m1 b2 m2 : ℕ} (h1 : validMask m1) (h2 : validMask m2)
    (hne : ¬ posLt (b1, m1) (b2, m2)) : (b1 = b2 ∧ m1 = m2) ∨ posLt (b2, m2) (b1, m1) := by
  unfold posLt at *
  simp only at *
  rcases Nat.lt_trichotomy b1 b2 with h | h | h
  · omega
  · subst h
    rcases Nat.lt_trichotomy (tb m1) (tb m2) with h' | h' | h'
    · omega
    · exact Or.inl ⟨rfl, tb_inj h1 h2 h'⟩
    · omega
  · omega

/-! ## Direction function facts -/

theorem dirC_le_one {b ob : ℕ} {k : List ℕ} (hob : ob ≤ 255) (hk : ValidKey k) :
    dirC b ob k ≤ 1 := by
  unfold dirC
  split
  · exact dirBit_le_one hob (Nat.le_of_lt_succ (getByte_lt hk b))
  · omega

theorem dirC_prefMask {b : ℕ} {k : List ℕ} (hk : ValidKey k) :
    dirC b PREFIX_MASK k = if b < k.length then 1 else 0 := by
  unfold dirC
  rcases Nat.lt_or_ge b k.length with h | h
  · rw [if_pos h, if_pos h, dirBit_prefMask (Nat.le_of_lt_succ (getByte_lt hk b))]
  · rw [if_neg (by omega), if_neg (by omega)]

theorem dirC_crit {b i : ℕ} (hi : i < 8) {k : List ℕ} (hk : ValidKey k) :
    dirC b (255 - 2 ^ i) k = if (getByte k b).testBit i then 1 else 0 := by
  unfold dirC
  rcases Nat.lt_or_ge b k.length with h | h
  · rw [if_pos h]
    exact dirBit_crit i hi _ (getByte_lt hk b)
  · have h0 : getByte k b = 0 := by
      unfold getByte
      rw [List.getD_eq_default _ _ (by omega)]
    rw [if_neg (by omega), h0, Nat.zero_testBit, if_neg Bool.false_ne_true]

/-! ## Basic structure lemmas -/

theorem keys_ne_nil : ∀ t : MTree, keys t ≠ []
  | mleaf _ _ => by simp [keys]
  | mnode _ _ _ l r => by
    simp only [keys, ne_eq, List.append_eq_nil]
    intro ⟨h, _⟩
    exact keys_ne_nil l h

theorem keys_eq_map_leaves : ∀ t : MTree, keys t = (leaves t).map Prod.snd
  | mleaf _ _ => rfl
  | mnode _ _ _ l r => by
    simp [keys, leaves, keys_eq_map_leaves l, keys_eq_map_leaves r]

theorem leafIds_eq_map_leaves : ∀ t : MTree, leafIds t = (leaves t).map Prod.fst
  | mleaf _ _ => rfl
  | mnode _ _ _ l r => by
    simp [leafIds, leaves, leafIds_eq_map_leaves l, leafIds_eq_map_leaves r]

theorem descLeaf_mem_leaves : ∀ (t : MTree) (u : List ℕ), descLeaf t u ∈ leaves t
  | mleaf _ _, _ => by simp [descLeaf, leaves]
  | mnode _ b ob l r, u => by
    simp only [descLeaf, leaves, List.mem_append]
    split
    · exact Or.inr (descLeaf_mem_leaves r u)
    · exact Or.inl (descLeaf_mem_leaves l u)

theorem descLeaf_key_mem (t : MTree) (u : List ℕ) : (descLeaf t u).2 ∈ keys t := by
  rw [keys_eq_map_leaves]
  exact List.mem_map_of_mem _ (descLeaf_mem_leaves t u)

theorem descLeaf_id_mem (t : MTree) (u : List ℕ) : (descLeaf t u).1 ∈ leafIds t := by
  rw [leafIds_eq_map_leaves]
  exact List.mem_map_of_mem _ (descLeaf_mem_leaves t u)

theorem orElse_some_left {α : Type} (a : α) (f : Unit → Option α) :
    Option.orElse (some a) f = some a := rfl

theorem orElse_none_left {α : Type} (f : Unit → Option α) :
    Option.orElse none f = f () := rfl

theorem keyAt_mem_leaves : ∀ (t : MTree) (i : ℕ) (k : List ℕ),
    keyAt t i = some k → (i, k) ∈ leaves t
  | mleaf j k', i, k => by
    simp only [keyAt, leaves, List.mem_singleton]
    split
    · rintro ⟨rfl⟩; simp_all
    · rintro ⟨⟩
  | mnode _ _ _ l r, i, k => by
    simp only [keyAt, leaves, List.mem_append]
    rcases h : keyAt l i with _ | k'
    · rw [orElse_none_left]
      intro h'
      exact Or.inr (keyAt_mem_leaves r i k h')
    · rw [orElse_some_left]
      rintro ⟨rfl⟩
      exact Or.inl (keyAt_mem_leaves l i _ h)

theorem mem_leaves_keyAt : ∀ (t : MTree) (i : ℕ) (k : List ℕ),
    (leafIds t).Nodup → (i, k) ∈ leaves t → keyAt t i = some k
  | mleaf j k', i, k => by
    simp only [leaves, List.mem_singleton, keyAt, Prod.mk.injEq]
    rintro _ ⟨rfl, rfl⟩
    simp
  | mnode _ _ _ l r, i, k => by
    simp only [leaves, List.mem_append, keyAt, leafIds, List.nodup_append]
    intro ⟨hl, hr, hdisj⟩ h
    rcases h with h | h
    · rw [mem_leaves_keyAt l i k hl h, orElse_some_left]
    · have hnotl : keyAt l i = none := by
        rcases hh : keyAt l i with _ | k''
        · rfl
        · exfalso
          have := keyAt_mem_leaves l i k'' hh
          have hil : i ∈ leafIds l := by
            rw [leafIds_eq_map_leaves]
            exact List.mem_map_of_mem _ this
          have hir : i ∈ leafIds r := by
            rw [leafIds_eq_map_leaves]
            exact List.mem_map_of_mem _ h
          exact hdisj hil hir
      rw [hnotl, orElse_none_left, mem_leaves_keyAt r i k hr h]

theorem findNodeOb_none : ∀ (t : MTree) (i : ℕ), i ∉ nodeIds t → findNodeOb t i = none
  | mleaf _ _, _, _ => rfl
  | mnode j _ ob l r, i, h => by
    simp only [nodeIds, List.mem_cons, List.mem_append] at h
    push_neg at h
    simp only [findNodeOb]
    rw [if_neg (by omega), findNodeOb_none l i h.2.1, orElse_none_left,
      findNodeOb_none r i h.2.2]

theorem findNodeOb_isSome : ∀ (t : MTree) (i : ℕ), i ∈ nodeIds t →
    (findNodeOb t i).isSome
  | mleaf _ _, i, h => by simp [nodeIds] at h
  | mnode j _ ob l r, i, h => by
    simp only [nodeIds, List.mem_cons, List.mem_append] at h
    simp only [findNodeOb]
    split
    · simp
    · rcases h with rfl | h | h
      · omega
      · rcases hh : findNodeOb l i with _ | ob'
        · have hs := findNodeOb_isSome l i h
          rw [hh] at hs; cases hs
        · rw [orElse_some_left]; rfl
      · rcases hh : findNodeOb l i with _ | ob'
        · rw [orElse_none_left]
          exact findNodeOb_isSome r i h
        · rw [orElse_some_left]; rfl

/-! ## Invariant-based descent facts -/

theorem descLeaf_self : ∀ (t : MTree), Inv t → ∀ u, u ∈ keys t →
    (descLeaf t u).2 = u
  | mleaf i k, _, u, hu => by
    simp only [keys, List.mem_singleton] at hu
    simp [descLeaf, hu]
  | mnode i b ob l r, hInv, u, hu => by
    obtain ⟨hm, h0, h1, hag, hl, hr⟩ := hInv
    simp only [keys, List.mem_append] at hu
    simp only [descLeaf]
    rcases hu with hu | hu
    · rw [if_neg (by rw [h0 u hu]; omega)]
      exact descLeaf_self l hl u hu
    · rw [if_pos (h1 u hu)]
      exact descLeaf_self r hr u hu

theorem keys_nodup : ∀ (t : MTree), Inv t → (keys t).Nodup
  | mleaf _ _, _ => by simp [keys]
  | mnode i b ob l r, hInv => by
    obtain ⟨hm, h0, h1, hag, hl, hr⟩ := hInv
    simp only [keys, List.nodup_append]
    refine ⟨keys_nodup l hl, keys_nodup r hr, ?_⟩
    intro a ha hb
    have := h0 a ha
    have := h1 a hb
    omega

theorem agree_refl (bm : ℕ × ℕ) (u : List ℕ) : Agree bm u u := fun _ _ _ _ => rfl

theorem agree_symm {bm : ℕ × ℕ} {u v : List ℕ} (h : Agree bm u v) : Agree bm v u :=
  fun b' m' hv hp => (h b' m' hv hp).symm

theorem agree_trans {bm : ℕ × ℕ} {u v w : List ℕ} (h1 : Agree bm u v)
    (h2 : Agree bm v w) : Agree bm u w :=
  fun b' m' hv hp => (h1 b' m' hv hp).trans (h2 b' m' hv hp)

theorem agree_mono {bm bm' : ℕ × ℕ} {u v : List ℕ} (h : Agree bm u v)
    (hle : posLt bm' bm) : Agree bm' u v :=
  fun b' m' hv hp => h b' m' hv (posLt_trans hp hle)

/-- At a subtree whose root descriptor sorts strictly after `(nb, nob)`,
all keys take the same direction at `(nb, nob)` and agree below it. -/
theorem stop_agree : ∀ (t : MTree), Inv t → ∀ (nb nob : ℕ), validMask nob →
    (∀ p ∈ rootPos t, posLt (nb, nob) p) →
    ∀ v ∈ keys t, ∀ w ∈ keys t,
      dirC nb nob v = dirC nb nob w ∧ Agree (nb, nob) v w
  | mleaf i k, _, nb, nob, _, _, v, hv, w, hw => by
    simp only [keys, List.mem_singleton] at hv hw
    subst hv; subst hw
    exact ⟨rfl, agree_refl _ _⟩
  | mnode i b ob l r, hInv, nb, nob, hmask, hstop, v, hv, w, hw => by
    obtain ⟨hm, h0, h1, hag, hl, hr⟩ := hInv
    have hlt : posLt (nb, nob) (b, ob) := hstop (b, ob) rfl
    have hAg : Agree (b, ob) v w := by
      have hv' : v ∈ keys l ++ keys r := hv
      have hw' : w ∈ keys l ++ keys r := hw
      exact hag v hv' w hw'
    exact ⟨hAg nb nob hmask hlt, agree_mono hAg hlt⟩

/-! ## Insertion: splice correctness -/

/-- Correctness of the node insertion at the splice point. -/
theorem mkNew_main (t : MTree) (hInv : Inv t) (u L : List ℕ) (f nb nob nd : ℕ)
    (hmask : validMask nob) (hL : L ∈ keys t)
    (hdL : dirC nb nob L = nd) (hdu : dirC nb nob u = 1 - nd) (hnd : nd ≤ 1)
    (hag : Agree (nb, nob) u L)
    (hstop : ∀ p ∈ rootPos t, posLt (nb, nob) p) :
    Inv (mkNewNode f nb nob nd u t) ∧
    List.Perm (leaves (mkNewNode f nb nob nd u t)) ((f, u) :: leaves t) ∧
    List.Perm (nodeIds (mkNewNode f nb nob nd u t)) (f :: nodeIds t) ∧
    (∀ k, k ∈ keys t → ∀ i, i ∈ descPath t k →
      i ∈ descPath (mkNewNode f nb nob nd u t) k) ∧
    f ∈ descPath (mkNewNode f nb nob nd u t) u := by
  have hdir : ∀ k ∈ keys t, dirC nb nob k = nd := by
    intro k hk
    rw [(stop_agree t hInv nb nob hmask hstop k hk L hL).1, hdL]
  have hagk : ∀ k ∈ keys t, Agree (nb, nob) u k := by
    intro k hk
    exact agree_trans hag (agree_symm (stop_agree t hInv nb nob hmask hstop k hk L hL).2)
  have hagkk : ∀ v ∈ keys t, ∀ w ∈ keys t, Agree (nb, nob) v w := by
    intro v hv w hw
    exact (stop_agree t hInv nb nob hmask hstop v hv w hw).2
  interval_cases nd
  · rw [show mkNewNode f nb nob 0 u t = mnode f nb nob t (mleaf f u) from rfl]
    refine ⟨⟨hmask, hdir, ?_, ?_, hInv, trivial⟩, ?_, ?_, ?_, ?_⟩
    · intro k hk
      simp only [keys, List.mem_singleton] at hk
      subst hk
      omega
    · intro v hv w hw
      simp only [keys, List.mem_append, List.mem_singleton] at hv hw
      rcases hv with hv | rfl <;> rcases hw with hw | rfl
      · exact hagkk v hv w hw
      · exact agree_symm (hagk v hv)
      · exact hagk w hw
      · exact agree_refl _ _
    · simp only [leaves]
      exact List.perm_append_singleton _ _
    · simp only [nodeIds, List.append_nil]
      exact List.Perm.refl _
    · intro k hk i hi
      simp only [descPath]
      rw [if_neg (by rw [hdir k hk]; omega)]
      exact List.mem_cons_of_mem _ hi
    · simp only [descPath]
      exact List.mem_cons_self _ _
  · rw [show mkNewNode f nb nob 1 u t = mnode f nb nob (mleaf f u) t from rfl]
    refine ⟨⟨hmask, ?_, hdir, ?_, trivial, hInv⟩, ?_, ?_, ?_, ?_⟩
    · intro k hk
      simp only [keys, List.mem_singleton] at hk
      subst hk
      omega
    · intro v hv w hw
      simp only [keys, List.mem_append, List.mem_singleton] at hv hw
      rcases hv with rfl | hv <;> rcases hw with rfl | hw
      · exact agree_refl _ _
      · exact hagk w hw
      · exact agree_symm (hagk v hv)
      · exact hagkk v hv w hw
    · simp only [leaves, List.singleton_append]
      exact List.Perm.refl _
    · simp only [nodeIds, List.nil_append]
      exact List.Perm.refl _
    · intro k hk i hi
      simp only [descPath]
      rw [if_pos (hdir k hk)]
      exact List.mem_cons_of_mem _ hi
    · simp only [descPath]
      exact List.mem_cons_self _ _

/-- Master lemma for the splice walk: the spliced tree keeps the
invariant, gains exactly the new leaf and the new node, preserves every
search path of keys already present, and places the new node on the new
key's own search path. -/
theorem splice_main : ∀ (t : MTree), Inv t → ∀ (u L : List ℕ) (f nb nob nd : ℕ),
    ValidKey u →
    validMask nob →
    (descLeaf t u).2 = L →
    dirC nb nob L = nd →
    dirC nb nob u = 1 - nd →
    nd ≤ 1 →
    Agree (nb, nob) u L →
    Inv (splice t u f nb nob nd (tb nob)) ∧
    List.Perm (leaves (splice t u f nb nob nd (tb nob))) ((f, u) :: leaves t) ∧
    List.Perm (nodeIds (splice t u f nb nob nd (tb nob))) (f :: nodeIds t) ∧
    (∀ k, k ∈ keys t → ∀ i, i ∈ descPath t k →
      i ∈ descPath (splice t u f nb nob nd (tb nob)) k) ∧
    f ∈ descPath (splice t u f nb nob nd (tb nob)) u := by
  intro t
  induction t with
  | mleaf j k =>
    intro hInv u L f nb nob nd hu hmask hdesc hdL hdu hnd hag
    rw [show splice (mleaf j k) u f nb nob nd (tb nob) =
      mkNewNode f nb nob nd u (mleaf j k) from rfl]
    exact mkNew_main (mleaf j k) hInv u L f nb nob nd hmask
      (hdesc ▸ descLeaf_key_mem (mleaf j k) u) hdL hdu hnd hag
      (by intro p hp; cases hp)
  | mnode j b ob l r ihl ihr =>
    intro hInv u L f nb nob nd hu hmask hdesc hdL hdu hnd hag
    obtain ⟨hm, h0, h1, hagn, hl, hr⟩ := hInv
    by_cases hbr : nb < b ∨ (b = nb ∧ tb nob < tb ob)
    · -- the walk stops here: the current node sorts after the new one
      have hsp : splice (mnode j b ob l r) u f nb nob nd (tb nob) =
          mkNewNode f nb nob nd u (mnode j b ob l r) := by
        rw [splice, if_pos hbr]
      rw [hsp]
      have hstop : ∀ p ∈ rootPos (mnode j b ob l r), posLt (nb, nob) p := by
        intro p hp
        simp only [rootPos, Option.mem_def, Option.some.injEq] at hp
        subst hp
        unfold posLt
        simp only
        omega
      exact mkNew_main (mnode j b ob l r) ⟨hm, h0, h1, hagn, hl, hr⟩ u L f nb nob nd
        hmask (hdesc ▸ descLeaf_key_mem (mnode j b ob l r) u) hdL hdu hnd hag hstop
    · -- the walk continues into the child indicated by the new key
      have hlt : posLt (b, ob) (nb, nob) := by
        have hnlt : ¬ posLt (nb, nob) (b, ob) := by
          unfold posLt
          simp only
          omega
        rcases posLt_total hmask hm hnlt with ⟨hb, ho⟩ | h
        · -- the node descriptor cannot equal the new one: the reached leaf
          -- would then take the same direction as the new key at it
          exfalso
          by_cases hdir : dirC b ob u = 1
          · have hdesc' : (descLeaf r u).2 = L := by
              rw [descLeaf, if_pos hdir] at hdesc
              exact hdesc
            have hLr : L ∈ keys r := hdesc' ▸ descLeaf_key_mem r u
            have h1L := h1 L hLr
            rw [← hb, ← ho] at h1L hdir
            omega
          · have hdesc' : (descLeaf l u).2 = L := by
              rw [descLeaf, if_neg hdir] at hdesc
              exact hdesc
            have hLl : L ∈ keys l := hdesc' ▸ descLeaf_key_mem l u
            have h0L := h0 L hLl
            rw [← hb, ← ho] at h0L hdir
            omega
        · exact h
      have hspl : splice (mnode j b ob l r) u f nb nob nd (tb nob) =
          if dirC b ob u = 1 then mnode j b ob l (splice r u f nb nob nd (tb nob))
          else mnode j b ob (splice l u f nb nob nd (tb nob)) r := by
        rw [splice, if_neg hbr]
      have hLmem : L ∈ keys (mnode j b ob l r) :=
        hdesc ▸ descLeaf_key_mem (mnode j b ob l r) u
      have hagu : ∀ w ∈ keys l ++ keys r, Agree (b, ob) u w := by
        intro w hw
        exact agree_trans (agree_mono hag hlt) (hagn L hLmem w hw)
      by_cases hdir : dirC b ob u = 1
      · have hdesc' : (descLeaf r u).2 = L := by
          rw [descLeaf, if_pos hdir] at hdesc
          exact hdesc
        obtain ⟨IH1, IH2, IH3, IH4, IH5⟩ :=
          ihr hr u L f nb nob nd hu hmask hdesc' hdL hdu hnd hag
        rw [hspl, if_pos hdir]
        have hkey2 : List.Perm (keys (splice r u f nb nob nd (tb nob))) (u :: keys r) := by
          have := IH2.map Prod.snd
          rw [← keys_eq_map_leaves] at this
          simpa [keys_eq_map_leaves r] using this
        have hkmem : ∀ v, v ∈ keys (splice r u f nb nob nd (tb nob)) ↔
            v = u ∨ v ∈ keys r := by
          intro v
          rw [hkey2.mem_iff, List.mem_cons]
        refine ⟨⟨hm, h0, ?_, ?_, hl, IH1⟩, ?_, ?_, ?_, ?_⟩
        · intro k hk
          rcases (hkmem k).1 hk with rfl | hk'
          · exact hdir
          · exact h1 k hk'
        · intro v hv w hw
          simp only [keys, List.mem_append] at hv hw
          have hsplit : ∀ x, (x ∈ keys l ∨ x ∈ keys (splice r u f nb nob nd (tb nob))) →
              x = u ∨ x ∈ keys l ++ keys r := by
            intro x hx
            rcases hx with hx | hx
            · exact Or.inr (List.mem_append_left _ hx)
            · rcases (hkmem x).1 hx with rfl | hx'
              · exact Or.inl rfl
              · exact Or.inr (List.mem_append_right _ hx')
          rcases hsplit v hv with rfl | hv' <;> rcases hsplit w hw with rfl | hw'
          · exact agree_refl _ _
          · exact hagu w hw'
          · exact agree_symm (hagu v hv')
          · exact hagn v hv' w hw'
        · simp only [leaves]
          exact (IH2.append_left _).trans List.perm_middle
        · simp only [nodeIds]
          exact (((IH3.append_left _).cons _).trans (List.perm_middle.cons _)).trans
            (List.Perm.swap _ _ _)
        · intro k hk i hi
          simp only [keys, List.mem_append] at hk
          simp only [descPath] at hi ⊢
          rcases List.mem_cons.1 hi with rfl | hi'
          · exact List.mem_cons_self _ _
          · apply List.mem_cons_of_mem
            by_cases hdk : dirC b ob k = 1
            · rw [if_pos hdk] at hi' ⊢
              have hkr : k ∈ keys r := by
                rcases hk with hk | hk
                · have := h0 k hk; omega
                · exact hk
              exact IH4 k hkr i hi'
            · rw [if_neg hdk] at hi' ⊢
              exact hi'
        · simp only [descPath]
          rw [if_pos hdir]
          exact List.mem_cons_of_mem _ IH5
      · have hdesc' : (descLeaf l u).2 = L := by
          rw [descLeaf, if_neg hdir] at hdesc
          exact hdesc
        obtain ⟨IH1, IH2, IH3, IH4, IH5⟩ :=
          ihl hl u L f nb nob nd hu hmask hdesc' hdL hdu hnd hag
        rw [hspl, if_neg hdir]
        have hkey2 : List.Perm (keys (splice l u f nb nob nd (tb nob))) (u :: keys l) := by
          have := IH2.map Prod.snd
          rw [← keys_eq_map_leaves] at this
          simpa [keys_eq_map_leaves l] using this
        have hkmem : ∀ v, v ∈ keys (splice l u f nb nob nd (tb nob)) ↔
            v = u ∨ v ∈ keys l := by
          intro v
          rw [hkey2.mem_iff, List.mem_cons]
        have hdu0 : dirC b ob u = 0 := by
          have hle : dirC b ob u ≤ 1 := dirC_le_one (validMask_le_255 hm) hu
          omega
        refine ⟨⟨hm, ?_, h1, ?_, IH1, hr⟩, ?_, ?_, ?_, ?_⟩
        · intro k hk
          rcases (hkmem k).1 hk with rfl | hk'
          · exact hdu0
          · exact h0 k hk'
        · intro v hv w hw
          simp only [keys, List.mem_append] at hv hw
          have hsplit : ∀ x, (x ∈ keys (splice l u f nb nob nd (tb nob)) ∨ x ∈ keys r) →
              x = u ∨ x ∈ keys l ++ keys r := by
            intro x hx
            rcases hx with hx | hx
            · rcases (hkmem x).1 hx with rfl | hx'
              · exact Or.inl rfl
              · exact Or.inr (List.mem_append_left _ hx')
            · exact Or.inr (List.mem_append_right _ hx)
          rcases hsplit v hv with rfl | hv' <;> rcases hsplit w hw with rfl | hw'
          · exact agree_refl _ _
          · exact hagu w hw'
          · exact agree_symm (hagu v hv')
          · exact hagn v hv' w hw'
        · simp only [leaves]
          exact IH2.append_right _
        · simp only [nodeIds]
          exact ((IH3.append_right _).cons _).trans (List.Perm.swap _ _ _)
        · intro k hk i hi
          simp only [keys, List.mem_append] at hk
          simp only [descPath] at hi ⊢
          rcases List.mem_cons.1 hi with rfl | hi'
          · exact List.mem_cons_self _ _
          · apply List.mem_cons_of_mem
            by_cases hdk : dirC b ob k = 1
            · rw [if_pos hdk] at hi' ⊢
              exact hi'
            · rw [if_neg hdk] at hi' ⊢
              have hkl : k ∈ keys l := by
                rcases hk with hk | hk
                · exact hk
                · have := h1 k hk; omega
              exact IH4 k hkl i hi'
        · simp only [descPath]
          rw [if_neg hdir]
          exact List.mem_cons_of_mem _ IH5

/-! ## The comparison loop of the insertion -/

theorem firstDiffFrom_none : ∀ (fuel s : ℕ) (a b : List ℕ),
    firstDiffFrom a b s fuel = none →
    ∀ i, s ≤ i → i < s + fuel → getByte a i = getByte b i := by
  intro fuel
  induction fuel with
  | zero => intro s a b _ i h1 h2; omega
  | succ n ih =>
    intro s a b h i h1 h2
    rw [firstDiffFrom] at h
    split at h
    · cases h
    · rcases Nat.eq_or_lt_of_le h1 with rfl | h1'
      · by_contra hne
        simp_all
      · exact ih (s + 1) a b h i h1' (by omega)

theorem firstDiffFrom_some : ∀ (fuel s : ℕ) (a b : List ℕ) (p : ℕ),
    firstDiffFrom a b s fuel = some p →
    s ≤ p ∧ p < s + fuel ∧ getByte a p ≠ getByte b p ∧
      ∀ i, s ≤ i → i < p → getByte a i = getByte b i := by
  intro fuel
  induction fuel with
  | zero => intro s a b p h; cases h
  | succ n ih =>
    intro s a b p h
    rw [firstDiffFrom] at h
    split at h
    · cases h
      refine ⟨le_refl _, by omega, by assumption, ?_⟩
      intro i h1 h2
      omega
    · obtain ⟨h1, h2, h3, h4⟩ := ih (s + 1) a b p h
      refine ⟨by omega, by omega, h3, ?_⟩
      intro i hi1 hi2
      rcases Nat.eq_or_lt_of_le hi1 with rfl | hi1'
      · by_contra hne
        simp_all
      · exact h4 i hi1' hi2

theorem key_eq_of_bytes {u L : List ℕ} (hlen : L.length = u.length)
    (h : ∀ i < u.length, getByte L i = getByte u i) : L = u := by
  apply List.ext_getElem hlen
  intro i h1 h2
  have hb := h i h2
  unfold getByte at hb
  rwa [List.getD_eq_getElem _ _ h1, List.getD_eq_getElem _ _ h2] at hb

/-- Keys agreeing byte-for-byte strictly below `nb`, and both of length at
least `nb`, take the same direction at every descriptor with offset below
`nb`. -/
theorem dir_eq_of_bytes_eq {u L : List ℕ} (hu : ValidKey u) (hL : ValidKey L)
    {nb : ℕ} (hlenu : nb ≤ u.length) (hlenL : nb ≤ L.length)
    (hbytes : ∀ i < nb, getByte u i = getByte L i)
    (b' m' : ℕ) (hm' : validMask m') (hb' : b' < nb) :
    dirC b' m' u = dirC b' m' L := by
  rcases hm' with hc | rfl
  · rcases validCrit_cases hc with ⟨j, hj, rfl⟩
    rw [dirC_crit hj hu, dirC_crit hj hL, hbytes b' hb']
  · rw [dirC_prefMask hu, dirC_prefMask hL, if_pos (by omega), if_pos (by omega)]

/-- Agreement below a critical-bit descriptor: equal bytes before the
offset, and equal bits above the critical one within the offset byte. -/
theorem agree_crit {u L : List ℕ} (hu : ValidKey u) (hL : ValidKey L)
    {p i : ℕ} (hi : i < 8) (hpu : p < u.length) (hpL : p < L.length)
    (hbytes : ∀ q < p, getByte u q = getByte L q)
    (hhigh : ∀ j < 8, i < j → (getByte u p).testBit j = (getByte L p).testBit j) :
    Agree (p, 255 - 2 ^ i) u L := by
  intro b' m' hm' hp
  unfold posLt at hp
  simp only at hp
  rcases hp with hb' | ⟨rfl, htb⟩
  · exact dir_eq_of_bytes_eq hu hL (by omega) (by omega) hbytes b' m' hm' hb'
  · rcases hm' with hc | rfl
    · rcases validCrit_cases hc with ⟨j, hj, rfl⟩
      rw [tb_crit i hi, tb_crit j hj] at htb
      have hij : i < j := by
        have h2i : 2 ^ i < 256 := by
          calc 2 ^ i < 2 ^ 8 := Nat.pow_lt_pow_right (by omega) hi
          _ = 256 := by norm_num
        have h2j : 2 ^ j < 256 := by
          calc 2 ^ j < 2 ^ 8 := Nat.pow_lt_pow_right (by omega) hj
          _ = 256 := by norm_num
        have : 2 ^ i < 2 ^ j := by omega
        exact (Nat.pow_lt_pow_iff_right (by omega)).1 this
      rw [dirC_crit hj hu, dirC_crit hj hL, hhigh j hj hij]
    · rw [dirC_prefMask hu, dirC_prefMask hL, if_pos (by omega), if_pos (by omega)]

/-- Agreement below a prefix descriptor at offset `nb`: only descriptors
with strictly smaller offsets sort below it. -/
theorem agree_prefixpos {u L : List ℕ} (hu : ValidKey u) (hL : ValidKey L)
    {nb : ℕ} (hlenu : nb ≤ u.length) (hlenL : nb ≤ L.length)
    (hbytes : ∀ i < nb, getByte u i = getByte L i) :
    Agree (nb, PREFIX_MASK) u L := by
  intro b' m' hm' hp
  unfold posLt at hp
  simp only [tb_prefMask] at hp
  rcases hp with hb' | ⟨rfl, htb⟩
  · exact dir_eq_of_bytes_eq hu hL hlenu hlenL hbytes b' m' hm' hb'
  · omega

/-- Facts about the computed critical-bit descriptor when the comparison
loop finds a differing byte at position `p`. -/
theorem insert_crit_facts {u L : List ℕ} (hu : ValidKey u) (hL : ValidKey L)
    {p clen : ℕ} (hclenu : clen ≤ u.length) (hclenL : clen ≤ L.length)
    (hfd : firstDiffFrom L u 0 clen = some p) :
    validMask (critMask (getByte L p) (getByte u p)) ∧
    dirBit (critMask (getByte L p) (getByte u p)) (getByte L p) ≤ 1 ∧
    dirC p (critMask (getByte L p) (getByte u p)) L =
      dirBit (critMask (getByte L p) (getByte u p)) (getByte L p) ∧
    dirC p (critMask (getByte L p) (getByte u p)) u =
      1 - dirBit (critMask (getByte L p) (getByte u p)) (getByte L p) ∧
    Agree (p, critMask (getByte L p) (getByte u p)) u L ∧ L ≠ u := by
  obtain ⟨-, hplt, hne, hbelow⟩ := firstDiffFrom_some clen 0 L u p hfd
  rw [Nat.zero_add] at hplt
  have hpu : p < u.length := by omega
  have hpL : p < L.length := by omega
  have hx : getByte L p < 256 := getByte_lt hL p
  have hy : getByte u p < 256 := getByte_lt hu p
  have hd256 : getByte L p ^^^ getByte u p < 256 := by
    have : getByte L p ^^^ getByte u p < 2 ^ 8 :=
      Nat.xor_lt_two_pow (by omega) (by omega)
    omega
  have hdne : getByte L p ^^^ getByte u p ≠ 0 := by
    intro h
    exact hne (Nat.xor_eq_zero.1 h)
  have hvalid : validCrit (critMask (getByte L p) (getByte u p)) :=
    maskOfXor_valid _ hd256 hdne
  obtain ⟨i, hi, hmo⟩ := validCrit_cases hvalid
  have htbit : (getByte L p ^^^ getByte u p).testBit i = true :=
    maskOfXor_testBit _ hd256 i hi hdne hmo
  have hbitne : (getByte L p).testBit i ≠ (getByte u p).testBit i := by
    rw [Nat.testBit_xor] at htbit
    intro h
    rw [h] at htbit
    simp at htbit
  have hdirL : dirBit (critMask (getByte L p) (getByte u p)) (getByte L p) =
      if (getByte L p).testBit i then 1 else 0 := by
    rw [hmo]
    exact dirBit_crit i hi _ hx
  have hdirU : dirBit (critMask (getByte L p) (getByte u p)) (getByte u p) =
      if (getByte u p).testBit i then 1 else 0 := by
    rw [hmo]
    exact dirBit_crit i hi _ hy
  refine ⟨Or.inl hvalid, ?_, ?_, ?_, ?_, ?_⟩
  · rw [hdirL]; split <;> omega
  · unfold dirC
    rw [if_pos hpL]
  · unfold dirC
    rw [if_pos hpu, hdirU, hdirL]
    rcases hb1 : (getByte L p).testBit i <;> rcases hb2 : (getByte u p).testBit i <;>
      simp_all
  · rw [hmo]
    apply agree_crit hu hL hi hpu hpL
    · intro q hq
      exact (hbelow q (by omega) hq).symm
    · intro j hj hij
      have hhigh := maskOfXor_high _ hd256 i hi j hj hmo hij
      rw [Nat.testBit_xor] at hhigh
      rcases hb1 : (getByte L p).testBit j <;> rcases hb2 : (getByte u p).testBit j <;>
        simp_all
  · intro h
    exact hne (by rw [h])

/-- Case analysis of `cb_tree_insert_node` on a non-empty tree: either the
key is already present and nothing changes, or it is absent and the tree
gains exactly the new leaf and the new node, preserving the invariant and
every existing search path. -/
theorem insertNode_cases (t : MTree) (hInv : Inv t) (hKV : ∀ k ∈ keys t, ValidKey k)
    (u : List ℕ) (hu : ValidKey u) (f : ℕ) (vac : ℕ → ℕ) :
    (u ∈ keys t ∧ cbInsertNode (some t) vac u f = (1, some t, vac)) ∨
    (u ∉ keys t ∧ ∃ t',
      cbInsertNode (some t) vac u f = (0, some t', vac) ∧
      Inv t' ∧
      List.Perm (leaves t') ((f, u) :: leaves t) ∧
      List.Perm (nodeIds t') (f :: nodeIds t) ∧
      (∀ k, k ∈ keys t → ∀ i, i ∈ descPath t k → i ∈ descPath t' k) ∧
      f ∈ descPath t' u) := by
  have hLmem : (descLeaf t u).2 ∈ keys t := descLeaf_key_mem t u
  have hLv : ValidKey (descLeaf t u).2 := hKV _ hLmem
  by_cases hc1 : (descLeaf t u).2.length < u.length
  · -- the leaf could be a prefix of the new key
    rcases hfd : firstDiffFrom (descLeaf t u).2 u 0 (descLeaf t u).2.length with _ | p
    · -- prefix node at offset `length L`, the shorter leaf goes left
      have hbytes : ∀ i < (descLeaf t u).2.length,
          getByte u i = getByte (descLeaf t u).2 i := by
        intro i hilt
        exact (firstDiffFrom_none _ 0 _ u hfd i (by omega) (by omega)).symm
      have hdL : dirC (descLeaf t u).2.length PREFIX_MASK (descLeaf t u).2 = 0 := by
        rw [dirC_prefMask hLv, if_neg (by omega)]
      have hdu : dirC (descLeaf t u).2.length PREFIX_MASK u = 1 := by
        rw [dirC_prefMask hu, if_pos (by omega)]
      have hag : Agree ((descLeaf t u).2.length, PREFIX_MASK) u (descLeaf t u).2 :=
        agree_prefixpos hu hLv (by omega) (by omega) hbytes
      have hnm : u ∉ keys t := by
        intro hmem
        have := descLeaf_self t hInv u hmem
        rw [this] at hc1
        omega
      obtain ⟨S1, S2, S3, S4, S5⟩ := splice_main t hInv u (descLeaf t u).2 f
        (descLeaf t u).2.length PREFIX_MASK 0 hu (Or.inr rfl) rfl hdL
        (by rw [hdu]) (by omega) hag
      refine Or.inr ⟨hnm, _, ?_, S1, S2, S3, S4, S5⟩
      simp [cbInsertNode, hfd, hc1, PREFIX_MASK]
    · -- differing byte within the shorter length
      obtain ⟨hmask, hnd, hdL, hdu, hag, hneq⟩ :=
        insert_crit_facts hu hLv (by omega) (le_refl _) hfd
      have hnm : u ∉ keys t := by
        intro hmem
        exact hneq (descLeaf_self t hInv u hmem)
      obtain ⟨S1, S2, S3, S4, S5⟩ := splice_main t hInv u (descLeaf t u).2 f p
        (critMask (getByte (descLeaf t u).2 p) (getByte u p))
        (dirBit (critMask (getByte (descLeaf t u).2 p) (getByte u p))
          (getByte (descLeaf t u).2 p)) hu hmask rfl hdL hdu hnd hag
      refine Or.inr ⟨hnm, _, ?_, S1, S2, S3, S4, S5⟩
      simp [cbInsertNode, hfd, hc1]
  · by_cases hc2 : u.length < (descLeaf t u).2.length
    · -- the new key could be a prefix of the leaf
      rcases hfd : firstDiffFrom (descLeaf t u).2 u 0 u.length with _ | p
      · have hbytes : ∀ i < u.length, getByte u i = getByte (descLeaf t u).2 i := by
          intro i hilt
          exact (firstDiffFrom_none _ 0 _ u hfd i (by omega) (by omega)).symm
        have hdL : dirC u.length PREFIX_MASK (descLeaf t u).2 = 1 := by
          rw [dirC_prefMask hLv, if_pos (by omega)]
        have hdu : dirC u.length PREFIX_MASK u = 0 := by
          rw [dirC_prefMask hu, if_neg (by omega)]
        have hag : Agree (u.length, PREFIX_MASK) u (descLeaf t u).2 :=
          agree_prefixpos hu hLv (by omega) (by omega) hbytes
        have hnm : u ∉ keys t := by
          intro hmem
          have := descLeaf_self t hInv u hmem
          rw [this] at hc2
          omega
        obtain ⟨S1, S2, S3, S4, S5⟩ := splice_main t hInv u (descLeaf t u).2 f
          u.length PREFIX_MASK 1 hu (Or.inr rfl) rfl hdL (by rw [hdu]) (by omega) hag
        refine Or.inr ⟨hnm, _, ?_, S1, S2, S3, S4, S5⟩
        simp [cbInsertNode, hfd, hc1, hc2, PREFIX_MASK]
      · obtain ⟨hmask, hnd, hdL, hdu, hag, hneq⟩ :=
          insert_crit_facts hu hLv (le_refl _) (by omega) hfd
        have hnm : u ∉ keys t := by
          intro hmem
          exact hneq (descLeaf_self t hInv u hmem)
        obtain ⟨S1, S2, S3, S4, S5⟩ := splice_main t hInv u (descLeaf t u).2 f p
          (critMask (getByte (descLeaf t u).2 p) (getByte u p))
          (dirBit (critMask (getByte (descLeaf t u).2 p) (getByte u p))
            (getByte (descLeaf t u).2 p)) hu hmask rfl hdL hdu hnd hag
        refine Or.inr ⟨hnm, _, ?_, S1, S2, S3, S4, S5⟩
        simp [cbInsertNode, hfd, hc1, hc2]
    · -- equal lengths: identical keys are detected here
      rcases hfd : firstDiffFrom (descLeaf t u).2 u 0 u.length with _ | p
      · have heq : (descLeaf t u).2 = u := by
          apply key_eq_of_bytes (by omega)
          intro i hilt
          exact firstDiffFrom_none _ 0 _ u hfd i (by omega) (by omega)
        refine Or.inl ⟨heq ▸ hLmem, ?_⟩
        simp [cbInsertNode, hfd, hc1, hc2]
      · obtain ⟨hmask, hnd, hdL, hdu, hag, hneq⟩ :=
          insert_crit_facts hu hLv (le_refl _) (by omega) hfd
        have hnm : u ∉ keys t := by
          intro hmem
          exact hneq (descLeaf_self t hInv u hmem)
        obtain ⟨S1, S2, S3, S4, S5⟩ := splice_main t hInv u (descLeaf t u).2 f p
          (critMask (getByte (descLeaf t u).2 p) (getByte u p))
          (dirBit (critMask (getByte (descLeaf t u).2 p) (getByte u p))
            (getByte (descLeaf t u).2 p)) hu hmask rfl hdL hdu hnd hag
        refine Or.inr ⟨hnm, _, ?_, S1, S2, S3, S4, S5⟩
        simp [cbInsertNode, hfd, hc1, hc2]

/-! ## State-level operations -/

theorem cbContains_iff (M : MState) (hWF : WFS M) (u : List ℕ) :
    cbContains M u = true ↔ u ∈ treeKeys M := by
  rcases M with ⟨t?, vac⟩
  rcases t? with _ | t
  · simp [cbContains, treeKeys]
  · have hInv : Inv t := hWF.2.2.2.2.2.1
    simp only [cbContains, treeKeys, decide_eq_true_eq]
    constructor
    · intro h
      exact h ▸ descLeaf_key_mem t u
    · intro h
      exact descLeaf_self t hInv u h

/-- Full specification of one `cb_tree_insert` call with a successful
allocation of fresh buffer `f`. -/
theorem cbInsert_spec (M : MState) (hWF : WFS M) (u : List ℕ) (hu : ValidKey u)
    (f : ℕ) (hf : FreshId M f) :
    WFS (cbInsert M u (some f)).2.1 ∧
    ((cbInsert M u (some f)).1 = 1 ∨ (cbInsert M u (some f)).1 = 0) ∧
    ((cbInsert M u (some f)).1 = 1 →
      u ∈ treeKeys M ∧ (cbInsert M u (some f)).2.1 = M ∧
      (cbInsert M u (some f)).2.2 = [Ev.alloc f, Ev.cfree f]) ∧
    ((cbInsert M u (some f)).1 = 0 →
      u ∉ treeKeys M ∧ (cbInsert M u (some f)).2.2 = [Ev.alloc f] ∧
      ∀ v, v ∈ treeKeys (cbInsert M u (some f)).2.1 ↔ v = u ∨ v ∈ treeKeys M) := by
  rcases M with ⟨t?, vac⟩
  rcases t? with _ | t
  · -- empty tree: the new leaf becomes the root, its cell is marked unused
    have hred : cbInsert ⟨none, vac⟩ u (some f) =
        (0, ⟨some (mleaf f u), Function.update vac f UNUSED_NODE⟩, [Ev.alloc f]) := by
      simp [cbInsert, cbInsertNode]
    rw [hred]
    refine ⟨?_, Or.inr rfl, by rintro ⟨⟩, ?_⟩
    · refine ⟨?_, by simp [leafIds], by simp [nodeIds], by simp [nodeIds], ?_, trivial, ?_⟩
      · intro k hk
        simp only [keys, List.mem_singleton] at hk
        subst hk
        exact hu
      · intro i hi _
        simp only [leafIds, List.mem_singleton] at hi
        subst hi
        simp [Function.update]
      · intro i hi
        simp [nodeIds] at hi
    · intro _
      refine ⟨by simp [treeKeys], rfl, ?_⟩
      intro v
      simp [treeKeys, keys]
  · -- non-empty tree
    have hInv : Inv t := hWF.2.2.2.2.2.1
    have hKV : ∀ k ∈ keys t, ValidKey k := hWF.1
    have hfl : f ∉ leafIds t := hf
    rcases insertNode_cases t hInv hKV u hu f vac with ⟨hmem, heq⟩ | ⟨hmem, t', heq, hInv',
      hleaves, hnodes, hpaths, hfpath⟩
    · -- duplicate key: the buffer is released again
      have hred : cbInsert ⟨some t, vac⟩ u (some f) =
          (1, ⟨some t, vac⟩, [Ev.alloc f, Ev.cfree f]) := by
        simp [cbInsert, heq]
      rw [hred]
      exact ⟨hWF, Or.inl rfl, fun _ => ⟨hmem, rfl, rfl⟩, by rintro ⟨⟩⟩
    · -- fresh key: spliced in
      obtain ⟨hW1, hW2, hW3, hW4, hW5, hW6, hW7⟩ := hWF
      have hred : cbInsert ⟨some t, vac⟩ u (some f) =
          (0, ⟨some t', vac⟩, [Ev.alloc f]) := by
        simp [cbInsert, heq]
      rw [hred]
      have hkeys' : List.Perm (keys t') (u :: keys t) := by
        have := hleaves.map Prod.snd
        rw [← keys_eq_map_leaves] at this
        simpa [keys_eq_map_leaves t] using this
      have hleafIds' : List.Perm (leafIds t') (f :: leafIds t) := by
        have := hleaves.map Prod.fst
        rw [← leafIds_eq_map_leaves] at this
        simpa [leafIds_eq_map_leaves t] using this
      have hfn : f ∉ nodeIds t := fun h => hfl (hW4 f h)
      have hln' : (leafIds t').Nodup := hleafIds'.nodup_iff.2 (by
        exact List.nodup_cons.2 ⟨hfl, hW2⟩)
      refine ⟨⟨?_, hln', ?_, ?_, ?_, hInv', ?_⟩, Or.inr rfl, by rintro ⟨⟩, ?_⟩
      · intro k hk
        rcases List.mem_cons.1 (hkeys'.mem_iff.1 hk) with rfl | hk'
        · exact hu
        · exact hW1 k hk'
      · exact hnodes.nodup_iff.2 (List.nodup_cons.2 ⟨hfn, hW3⟩)
      · intro i hi
        rcases List.mem_cons.1 (hnodes.mem_iff.1 hi) with rfl | hi'
        · exact hleafIds'.mem_iff.2 (List.mem_cons_self _ _)
        · exact hleafIds'.mem_iff.2 (List.mem_cons_of_mem _ (hW4 i hi'))
      · intro i hi hni
        have hif : i ≠ f := by
          intro h
          exact hni (h ▸ hnodes.mem_iff.2 (List.mem_cons_self _ _))
        have hiold : i ∈ leafIds t := by
          rcases List.mem_cons.1 (hleafIds'.mem_iff.1 hi) with rfl | h
          · exact absurd rfl hif
          · exact h
        have hniold : i ∉ nodeIds t := fun h =>
          hni (hnodes.mem_iff.2 (List.mem_cons_of_mem _ h))
        exact hW5 i hiold hniold
      · intro i hi k hk
        rcases List.mem_cons.1 (hnodes.mem_iff.1 hi) with rfl | hi'
        · -- the new node: its buffer's key is the new key
          have hkeyf : keyAt t' i = some u := by
            apply mem_leaves_keyAt t' i u hln'
            exact hleaves.mem_iff.2 (List.mem_cons_self _ _)
          rw [hkeyf] at hk
          injection hk with hk
          subst hk
          exact hfpath
        · have hik : (i, k) ∈ leaves t' := keyAt_mem_leaves t' i k hk
          have hiold : (i, k) ∈ leaves t := by
            rcases List.mem_cons.1 (hleaves.mem_iff.1 hik) with h | h
            · exfalso
              have : i = f := congrArg Prod.fst h
              exact hfn (this ▸ hi')
            · exact h
          have hkold : keyAt t i = some k := mem_leaves_keyAt t i k hW2 hiold
          have hkmem : k ∈ keys t := by
            rw [keys_eq_map_leaves]
            exact List.mem_map_of_mem _ hiold
          exact hpaths k hkmem i (hW7 i hi' k hkold)
      · intro _
        refine ⟨hmem, rfl, ?_⟩
        intro v
        simp only [treeKeys]
        rw [hkeys'.mem_iff, List.mem_cons]

/-! ## Deletion: bookkeeping lemmas -/

theorem qInfo_node (i b ob : ℕ) (l r : MTree) (u : List ℕ) :
    qInfo (mnode i b ob l r) u =
      if dirC b ob u = 1 then
        (match r with
         | mleaf j k => (i, j, k)
         | mnode j c oc rl rr => qInfo (mnode j c oc rl rr) u)
      else
        (match l with
         | mleaf j k => (i, j, k)
         | mnode j c oc ll lr => qInfo (mnode j c oc ll lr) u) := by
  rw [qInfo.eq_def]

theorem collapseQ_node (i b ob : ℕ) (l r : MTree) (u : List ℕ) :
    collapseQ (mnode i b ob l r) u =
      if dirC b ob u = 1 then
        (match r with
         | mleaf _ _ => l
         | mnode j c oc rl rr => mnode i b ob l (collapseQ (mnode j c oc rl rr) u))
      else
        (match l with
         | mleaf _ _ => r
         | mnode j c oc ll lr => mnode i b ob (collapseQ (mnode j c oc ll lr) u) r) := by
  rw [collapseQ.eq_def]

theorem salv_node (i b ob : ℕ) (l r : MTree) (u : List ℕ) (idU idQ : ℕ) :
    salv (mnode i b ob l r) u idU idQ =
      if i = idU then
        some (if dirC b ob u = 1 then mnode idQ b ob l (collapseQ r u)
              else mnode idQ b ob (collapseQ l u) r)
      else
        if dirC b ob u = 1 then (salv r u idU idQ).map (fun r' => mnode i b ob l r')
        else (salv l u idU idQ).map (fun l' => mnode i b ob l' r) := by
  rw [salv.eq_def]

theorem validMask_ne_unused {m : ℕ} (h : validMask m) : m ≠ UNUSED_NODE := by
  rcases h with h | rfl
  · rcases validCrit_cases h with ⟨i, hi, rfl⟩
    interval_cases i <;> decide
  · decide

theorem qInfo_eq_descLeaf : ∀ (t : MTree) (u : List ℕ), (qInfo t u).2 = descLeaf t u
  | mleaf i k, u => rfl
  | mnode i b ob l r, u => by
    rw [qInfo_node, descLeaf]
    split
    · rcases r with ⟨j, k⟩ | ⟨j, c, oc, rl, rr⟩
      · rfl
      · exact qInfo_eq_descLeaf (mnode j c oc rl rr) u
    · rcases l with ⟨j, k⟩ | ⟨j, c, oc, ll, lr⟩
      · rfl
      · exact qInfo_eq_descLeaf (mnode j c oc ll lr) u

theorem qInfo_mem_nodeIds : ∀ (t : MTree) (u : List ℕ), nodeIds t ≠ [] →
    (qInfo t u).1 ∈ nodeIds t := by
  intro t
  induction t with
  | mleaf i k => intro u h; simp [nodeIds] at h
  | mnode i b ob l r ihl ihr =>
    intro u _
    rw [qInfo_node]
    split
    · rcases r with ⟨j', k'⟩ | ⟨j', c, oc, rl, rr⟩
      · simp [nodeIds]
      · simp only [nodeIds, List.mem_cons, List.mem_append]
        refine Or.inr (Or.inr ?_)
        have := ihr u (by simp [nodeIds])
        simpa [nodeIds] using this
    · rcases l with ⟨j', k'⟩ | ⟨j', c, oc, ll, lr⟩
      · simp [nodeIds]
      · simp only [nodeIds, List.mem_cons, List.mem_append]
        refine Or.inr (Or.inl ?_)
        have := ihl u (by simp [nodeIds])
        simpa [nodeIds] using this

theorem descPath_last : ∀ (t : MTree) (u : List ℕ), nodeIds t ≠ [] →
    ∃ pre, descPath t u = pre ++ [(qInfo t u).1] := by
  intro t
  induction t with
  | mleaf i k => intro u h; simp [nodeIds] at h
  | mnode i b ob l r ihl ihr =>
    intro u _
    rw [qInfo_node, descPath]
    by_cases hdir : dirC b ob u = 1
    · rw [if_pos hdir, if_pos hdir]
      rcases r with ⟨j', k'⟩ | ⟨j', c, oc, rl, rr⟩
      · exact ⟨[], by simp [descPath]⟩
      · obtain ⟨pre, hpre⟩ := ihr u (by simp [nodeIds])
        exact ⟨i :: pre, by simp [hpre]⟩
    · rw [if_neg hdir, if_neg hdir]
      rcases l with ⟨j', k'⟩ | ⟨j', c, oc, ll, lr⟩
      · exact ⟨[], by simp [descPath]⟩
      · obtain ⟨pre, hpre⟩ := ihl u (by simp [nodeIds])
        exact ⟨i :: pre, by simp [hpre]⟩

theorem descPath_sub_nodeIds : ∀ (t : MTree) (k : List ℕ) (i : ℕ),
    i ∈ descPath t k → i ∈ nodeIds t
  | mleaf _ _, k, i, h => by simp [descPath] at h
  | mnode j b ob l r, k, i, h => by
    simp only [descPath, List.mem_cons] at h
    simp only [nodeIds, List.mem_cons, List.mem_append]
    rcases h with rfl | h
    · exact Or.inl rfl
    · split at h
      · exact Or.inr (Or.inr (descPath_sub_nodeIds r k i h))
      · exact Or.inr (Or.inl (descPath_sub_nodeIds l k i h))

theorem nodup_node_parts {j b ob : ℕ} {l r : MTree}
    (h : (nodeIds (mnode j b ob l r)).Nodup) :
    j ∉ nodeIds l ∧ j ∉ nodeIds r ∧ (nodeIds l).Nodup ∧ (nodeIds r).Nodup ∧
      ∀ i ∈ nodeIds l, i ∉ nodeIds r := by
  simp only [nodeIds, List.nodup_cons, List.mem_append, List.nodup_append] at h
  push_neg at h
  exact ⟨h.1.1, h.1.2, h.2.1, h.2.2.1, h.2.2.2⟩

/-- Everything on the search path of `u` except its final node lies on the
search path of any key whose path also contains that final node. -/
theorem path_last_all : ∀ (t : MTree), (nodeIds t).Nodup → ∀ (u k : List ℕ),
    (qInfo t u).1 ∈ descPath t k →
    ∀ i ∈ descPath t u, i = (qInfo t u).1 ∨ i ∈ descPath t k := by
  intro t
  induction t with
  | mleaf j0 k0 => intro _ u k _ i hi; simp [descPath] at hi
  | mnode j b ob l r ihl ihr =>
    intro hnd u k hlast i hi
    obtain ⟨hjl, hjr, hndl, hndr, hdisj⟩ := nodup_node_parts hnd
    rw [descPath, List.mem_cons] at hi
    rcases hi with hji | hi
    · by_cases hq : (qInfo (mnode j b ob l r) u).1 = j
      · rw [hji]
        exact Or.inl hq.symm
      · rw [hji, descPath]
        exact Or.inr (List.mem_cons_self _ _)
    · rw [qInfo_node] at hlast ⊢
      split at hlast
      · rcases r with ⟨j', k'⟩ | ⟨j', c, oc, rl, rr⟩
        · rw [if_pos (by assumption)] at hi
          simp [descPath] at hi
        · rw [if_pos (by assumption)] at hi
          have hqr : (qInfo (mnode j' c oc rl rr) u).1 ∈ nodeIds (mnode j' c oc rl rr) :=
            qInfo_mem_nodeIds (mnode j' c oc rl rr) u (by simp [nodeIds])
          rw [descPath, List.mem_cons] at hlast
          rcases hlast with hlast | hlast
          · exact absurd (hlast ▸ hqr) hjr
          · split at hlast
            · rw [if_pos (by assumption)]
              rcases ihr hndr u k hlast i hi with h | h
              · exact Or.inl h
              · rw [descPath]
                refine Or.inr (List.mem_cons_of_mem _ ?_)
                rw [if_pos (by assumption)]
                exact h
            · exact absurd (descPath_sub_nodeIds _ k _ hlast)
                (fun hh => hdisj _ hh hqr)
      · rcases l with ⟨j', k'⟩ | ⟨j', c, oc, ll, lr⟩
        · rw [if_neg (by assumption)] at hi
          simp [descPath] at hi
        · rw [if_neg (by assumption)] at hi
          have hql : (qInfo (mnode j' c oc ll lr) u).1 ∈ nodeIds (mnode j' c oc ll lr) :=
            qInfo_mem_nodeIds (mnode j' c oc ll lr) u (by simp [nodeIds])
          rw [descPath, List.mem_cons] at hlast
          rcases hlast with hlast | hlast
          · exact absurd (hlast ▸ hql) hjl
          · split at hlast
            · exact absurd hql
                (fun hh => hdisj _ hh (descPath_sub_nodeIds _ k _ hlast))
            · rw [if_neg (by assumption)]
              rcases ihl hndl u k hlast i hi with h | h
              · exact Or.inl h
              · rw [descPath]
                refine Or.inr (List.mem_cons_of_mem _ ?_)
                rw [if_neg (by assumption)]
                exact h

theorem keys_perm_of_leaves {s s' : MTree} {x : ℕ} {u : List ℕ}
    (h : List.Perm (leaves s) ((x, u) :: leaves s')) :
    List.Perm (keys s) (u :: keys s') := by
  have h2 := h.map Prod.snd
  rw [← keys_eq_map_leaves] at h2
  simpa [keys_eq_map_leaves s'] using h2

theorem leafIds_perm_of_leaves {s s' : MTree} {x : ℕ} {u : List ℕ}
    (h : List.Perm (leaves s) ((x, u) :: leaves s')) :
    List.Perm (leafIds s) (x :: leafIds s') := by
  have h2 := h.map Prod.fst
  rw [← leafIds_eq_map_leaves] at h2
  simpa [leafIds_eq_map_leaves s'] using h2

/-- Master lemma for collapsing the parent of the leaf that holds `u`:
the tree loses exactly that leaf and its parent node, keeps the
invariant, and keeps every other node on the search path of every other
key. -/
theorem collapseQ_main : ∀ (t : MTree), Inv t → nodeIds t ≠ [] → ∀ u : List ℕ,
    (descLeaf t u).2 = u →
    Inv (collapseQ t u) ∧
    List.Perm (leaves t) (((descLeaf t u).1, u) :: leaves (collapseQ t u)) ∧
    List.Perm (nodeIds t) ((qInfo t u).1 :: nodeIds (collapseQ t u)) ∧
    (∀ k, k ∈ keys t → k ≠ u → ∀ i, i ∈ descPath t k →
      i ≠ (qInfo t u).1 → i ∈ descPath (collapseQ t u) k) := by
  intro t
  induction t with
  | mleaf j0 k0 => intro _ hne _ _; simp [nodeIds] at hne
  | mnode i b ob l r ihl ihr =>
    intro hInv _ u hdesc
    obtain ⟨hm, h0, h1, hagn, hl, hr⟩ := hInv
    rw [descLeaf] at hdesc ⊢
    rw [collapseQ_node, qInfo_node]
    by_cases hdir : dirC b ob u = 1
    · rw [if_pos hdir] at hdesc ⊢
      rw [if_pos hdir, if_pos hdir]
      rcases r with ⟨j', k'⟩ | ⟨j', c, oc, rl, rr⟩
      · -- the parent of the deleted leaf is this node; promote the left child
        rw [descLeaf] at hdesc
        have hk'u : k' = u := hdesc
        refine ⟨hl, ?_, ?_, ?_⟩
        · simp only [leaves, descLeaf, hk'u]
          exact List.perm_append_singleton _ _
        · simp [nodeIds]
        · intro k hk hku i' hi' hqi
          simp only [keys, List.mem_append, List.mem_singleton] at hk
          have hkl : k ∈ keys l := by
            rcases hk with hk | hk
            · exact hk
            · rw [hk] at hku
              exact absurd hk'u hku
          simp only [descPath, List.mem_cons] at hi'
          rcases hi' with rfl | hi'
          · exact absurd rfl hqi
          · rw [if_neg (by rw [h0 k hkl]; omega)] at hi'
            exact hi'
      · obtain ⟨K1, K2, K3, K4⟩ := ihr hr (by simp [nodeIds]) u hdesc
        have hsub : ∀ k ∈ keys (collapseQ (mnode j' c oc rl rr) u),
            k ∈ keys (mnode j' c oc rl rr) := fun k hk =>
          (keys_perm_of_leaves K2).mem_iff.2 (List.mem_cons_of_mem _ hk)
        refine ⟨⟨hm, h0, ?_, ?_, hl, K1⟩, ?_, ?_, ?_⟩
        · intro k hk
          exact h1 k (hsub k hk)
        · intro v hv w hw
          simp only [keys, List.mem_append] at hv hw
          apply hagn
          · simp only [keys, List.mem_append]
            rcases hv with hv | hv
            · exact Or.inl hv
            · exact Or.inr (by simpa [keys] using hsub v hv)
          · simp only [keys, List.mem_append]
            rcases hw with hw | hw
            · exact Or.inl hw
            · exact Or.inr (by simpa [keys] using hsub w hw)
        · simp only [leaves]
          exact ((K2.append_left _).trans List.perm_middle)
        · simp only [nodeIds]
          exact (((K3.append_left _).cons _).trans (List.perm_middle.cons _)).trans
            (List.Perm.swap _ _ _)
        · intro k hk hku i' hi' hqi
          simp only [keys, List.mem_append] at hk
          simp only [descPath, List.mem_cons] at hi' ⊢
          rcases hi' with rfl | hi'
          · exact Or.inl rfl
          · refine Or.inr ?_
            by_cases hdk : dirC b ob k = 1
            · rw [if_pos hdk] at hi' ⊢
              have hkr : k ∈ keys (mnode j' c oc rl rr) := by
                rcases hk with hk | hk
                · have := h0 k hk; omega
                · simpa [keys] using hk
              exact K4 k hkr hku i' hi' hqi
            · rw [if_neg hdk] at hi' ⊢
              exact hi'
    · rw [if_neg hdir] at hdesc ⊢
      rw [if_neg hdir, if_neg hdir]
      rcases l with ⟨j', k'⟩ | ⟨j', c, oc, ll, lr⟩
      · rw [descLeaf] at hdesc
        have hk'u : k' = u := hdesc
        refine ⟨hr, ?_, ?_, ?_⟩
        · simp only [leaves, descLeaf, hk'u, List.singleton_append]
          exact List.Perm.refl _
        · simp [nodeIds]
        · intro k hk hku i' hi' hqi
          simp only [keys, List.mem_append, List.mem_singleton] at hk
          have hkr : k ∈ keys r := by
            rcases hk with hk | hk
            · rw [hk] at hku
              exact absurd hk'u hku
            · exact hk
          simp only [descPath, List.mem_cons] at hi'
          rcases hi' with rfl | hi'
          · exact absurd rfl hqi
          · rw [if_pos (h1 k hkr)] at hi'
            exact hi'
      · obtain ⟨K1, K2, K3, K4⟩ := ihl hl (by simp [nodeIds]) u hdesc
        have hsub : ∀ k ∈ keys (collapseQ (mnode j' c oc ll lr) u),
            k ∈ keys (mnode j' c oc ll lr) := fun k hk =>
          (keys_perm_of_leaves K2).mem_iff.2 (List.mem_cons_of_mem _ hk)
        refine ⟨⟨hm, ?_, h1, ?_, K1, hr⟩, ?_, ?_, ?_⟩
        · intro k hk
          exact h0 k (hsub k hk)
        · intro v hv w hw
          simp only [keys, List.mem_append] at hv hw
          apply hagn
          · simp only [keys, List.mem_append]
            rcases hv with hv | hv
            · exact Or.inl (by simpa [keys] using hsub v hv)
            · exact Or.inr hv
          · simp only [keys, List.mem_append]
            rcases hw with hw | hw
            · exact Or.inl (by simpa [keys] using hsub w hw)
            · exact Or.inr hw
        · simp only [leaves]
          exact K2.append_right _
        · simp only [nodeIds]
          exact ((K3.append_right _).cons _).trans (List.Perm.swap _ _ _)
        · intro k hk hku i' hi' hqi
          simp only [keys, List.mem_append] at hk
          simp only [descPath, List.mem_cons] at hi' ⊢
          rcases hi' with rfl | hi'
          · exact Or.inl rfl
          · refine Or.inr ?_
            by_cases hdk : dirC b ob k = 1
            · rw [if_pos hdk] at hi' ⊢
              exact hi'
            · rw [if_neg hdk] at hi' ⊢
              have hkl : k ∈ keys (mnode j' c oc ll lr) := by
                rcases hk with hk | hk
                · simpa [keys] using hk
                · have := h1 k hk; omega
              exact K4 k hkl hku i' hi' hqi

/-- Master lemma for the salvage re-descent: when the deleted leaf's cell
is in use as an internal node other than the collapsed parent, the
re-descent finds it, relabels it into the parent's cell, and the tree
loses exactly the deleted leaf and one node cell. -/
theorem salv_main : ∀ (t : MTree), Inv t → (nodeIds t).Nodup →
    ∀ (u : List ℕ) (idU idQ : ℕ),
    descLeaf t u = (idU, u) →
    qInfo t u = (idQ, idU, u) →
    idU ≠ idQ →
    idU ∈ descPath t u →
    ∃ t'', salv t u idU idQ = some t'' ∧
      Inv t'' ∧
      List.Perm (leaves t) ((idU, u) :: leaves t'') ∧
      List.Perm (nodeIds t) (idU :: nodeIds t'') ∧
      ∀ k, k ∈ keys t → k ≠ u → ∀ i, i ∈ descPath t k →
        ((i ≠ idU → i ≠ idQ → i ∈ descPath t'' k) ∧
         (i = idU → idQ ∈ descPath t'' k)) := by
  intro t
  induction t with
  | mleaf j0 k0 =>
    intro _ _ u idU idQ _ _ _ hpath
    simp [descPath] at hpath
  | mnode i b ob l r ihl ihr =>
    intro hInv hnd u idU idQ hdesc hq hne hpath
    obtain ⟨hm, h0, h1, hagn, hl, hr⟩ := hInv
    obtain ⟨hjl, hjr, hndl, hndr, hdisj⟩ := nodup_node_parts hnd
    rw [salv_node]
    by_cases hfound : i = idU
    · rw [if_pos hfound]
      by_cases hdir : dirC b ob u = 1
      · rw [descLeaf, if_pos hdir] at hdesc
        rw [qInfo_node, if_pos hdir] at hq
        rcases r with ⟨j', k'⟩ | ⟨j', c, oc, rl, rr⟩
        · exfalso
          have hiq : i = idQ := congrArg Prod.fst hq
          exact hne (hfound ▸ hiq)
        · have hdesc2 : (descLeaf (mnode j' c oc rl rr) u).2 = u := by rw [hdesc]
          obtain ⟨K1, K2, K3, K4⟩ :=
            collapseQ_main (mnode j' c oc rl rr) hr (by simp [nodeIds]) u hdesc2
          have hdU1 : (descLeaf (mnode j' c oc rl rr) u).1 = idU := by rw [hdesc]
          have hq2 : qInfo (mnode j' c oc rl rr) u = (idQ, idU, u) := hq
          have hq1 : (qInfo (mnode j' c oc rl rr) u).1 = idQ := by rw [hq2]
          rw [hdU1] at K2
          rw [hq1] at K3
          have hsub : ∀ k ∈ keys (collapseQ (mnode j' c oc rl rr) u),
              k ∈ keys (mnode j' c oc rl rr) := fun k hk =>
            (keys_perm_of_leaves K2).mem_iff.2 (List.mem_cons_of_mem _ hk)
          refine ⟨mnode idQ b ob l (collapseQ (mnode j' c oc rl rr) u),
            by rw [if_pos hdir], ⟨hm, h0, ?_, ?_, hl, K1⟩, ?_, ?_, ?_⟩
          · intro k hk
            exact h1 k (hsub k hk)
          · intro v hv w hw
            simp only [keys, List.mem_append] at hv hw
            apply hagn
            · simp only [keys, List.mem_append]
              rcases hv with hv | hv
              · exact Or.inl hv
              · exact Or.inr (by simpa [keys] using hsub v hv)
            · simp only [keys, List.mem_append]
              rcases hw with hw | hw
              · exact Or.inl hw
              · exact Or.inr (by simpa [keys] using hsub w hw)
          · simp only [leaves]
            exact (K2.append_left _).trans List.perm_middle
          · simp only [nodeIds]
            rw [hfound]
            exact ((K3.append_left _).cons _).trans (List.perm_middle.cons _)
          · intro k hk hku i' hi'
            simp only [descPath, List.mem_cons] at hi'
            constructor
            · intro hiU hiQ
              rcases hi' with rfl | hi'
              · exact absurd hfound hiU
              · simp only [descPath, List.mem_cons]
                refine Or.inr ?_
                by_cases hdk : dirC b ob k = 1
                · rw [if_pos hdk] at hi' ⊢
                  have hkr : k ∈ keys (mnode j' c oc rl rr) := by
                    simp only [keys, List.mem_append] at hk
                    rcases hk with hk | hk
                    · have := h0 k hk; omega
                    · simpa [keys] using hk
                  exact K4 k hkr hku i' hi' (hq1 ▸ hiQ)
                · rw [if_neg hdk] at hi' ⊢
                  exact hi'
            · intro _
              simp only [descPath]
              exact List.mem_cons_self _ _
      · rw [descLeaf, if_neg hdir] at hdesc
        rw [qInfo_node, if_neg hdir] at hq
        rcases l with ⟨j', k'⟩ | ⟨j', c, oc, ll, lr⟩
        · exfalso
          have hiq : i = idQ := congrArg Prod.fst hq
          exact hne (hfound ▸ hiq)
        · have hdesc2 : (descLeaf (mnode j' c oc ll lr) u).2 = u := by rw [hdesc]
          obtain ⟨K1, K2, K3, K4⟩ :=
            collapseQ_main (mnode j' c oc ll lr) hl (by simp [nodeIds]) u hdesc2
          have hdU1 : (descLeaf (mnode j' c oc ll lr) u).1 = idU := by rw [hdesc]
          have hq2 : qInfo (mnode j' c oc ll lr) u = (idQ, idU, u) := hq
          have hq1 : (qInfo (mnode j' c oc ll lr) u).1 = idQ := by rw [hq2]
          rw [hdU1] at K2
          rw [hq1] at K3
          have hsub : ∀ k ∈ keys (collapseQ (mnode j' c oc ll lr) u),
              k ∈ keys (mnode j' c oc ll lr) := fun k hk =>
            (keys_perm_of_leaves K2).mem_iff.2 (List.mem_cons_of_mem _ hk)
          refine ⟨mnode idQ b ob (collapseQ (mnode j' c oc ll lr) u) r,
            by rw [if_neg hdir], ⟨hm, ?_, h1, ?_, K1, hr⟩, ?_, ?_, ?_⟩
          · intro k hk
            exact h0 k (hsub k hk)
          · intro v hv w hw
            simp only [keys, List.mem_append] at hv hw
            apply hagn
            · simp only [keys, List.mem_append]
              rcases hv with hv | hv
              · exact Or.inl (by simpa [keys] using hsub v hv)
              · exact Or.inr hv
            · simp only [keys, List.mem_append]
              rcases hw with hw | hw
              · exact Or.inl (by simpa [keys] using hsub w hw)
              · exact Or.inr hw
          · simp only [leaves]
            exact K2.append_right _
          · simp only [nodeIds]
            rw [hfound]
            exact (K3.append_right _).cons _
          · intro k hk hku i' hi'
            simp only [descPath, List.mem_cons] at hi'
            constructor
            · intro hiU hiQ
              rcases hi' with rfl | hi'
              · exact absurd hfound hiU
              · simp only [descPath, List.mem_cons]
                refine Or.inr ?_
                by_cases hdk : dirC b ob k = 1
                · rw [if_pos hdk] at hi' ⊢
                  exact hi'
                · rw [if_neg hdk] at hi' ⊢
                  have hkl : k ∈ keys (mnode j' c oc ll lr) := by
                    simp only [keys, List.mem_append] at hk
                    rcases hk with hk | hk
                    · simpa [keys] using hk
                    · have := h1 k hk; omega
                  exact K4 k hkl hku i' hi' (hq1 ▸ hiQ)
            · intro _
              simp only [descPath]
              exact List.mem_cons_self _ _
    · rw [if_neg hfound]
      rw [descPath, List.mem_cons] at hpath
      rcases hpath with hpath | hpath
      · exact absurd hpath.symm hfound
      · by_cases hdir : dirC b ob u = 1
        · rw [if_pos hdir] at hpath
          rw [descLeaf, if_pos hdir] at hdesc
          rw [qInfo_node, if_pos hdir] at hq
          rcases r with ⟨j', k'⟩ | ⟨j', c, oc, rl, rr⟩
          · simp [descPath] at hpath
          · obtain ⟨tc, hsc, J1, J2, J3, J4⟩ :=
              ihr hr hndr u idU idQ hdesc hq hne hpath
            have hsub : ∀ k ∈ keys tc, k ∈ keys (mnode j' c oc rl rr) := fun k hk =>
              (keys_perm_of_leaves J2).mem_iff.2 (List.mem_cons_of_mem _ hk)
            refine ⟨mnode i b ob l tc, by rw [if_pos hdir, hsc]; rfl,
              ⟨hm, h0, ?_, ?_, hl, J1⟩, ?_, ?_, ?_⟩
            · intro k hk
              exact h1 k (hsub k hk)
            · intro v hv w hw
              simp only [keys, List.mem_append] at hv hw
              apply hagn
              · simp only [keys, List.mem_append]
                rcases hv with hv | hv
                · exact Or.inl hv
                · exact Or.inr (by simpa [keys] using hsub v hv)
              · simp only [keys, List.mem_append]
                rcases hw with hw | hw
                · exact Or.inl hw
                · exact Or.inr (by simpa [keys] using hsub w hw)
            · simp only [leaves]
              exact (J2.append_left _).trans List.perm_middle
            · simp only [nodeIds]
              exact (((J3.append_left _).cons _).trans (List.perm_middle.cons _)).trans
                (List.Perm.swap _ _ _)
            · intro k hk hku i' hi'
              simp only [descPath, List.mem_cons] at hi'
              have hkmem : dirC b ob k = 1 → k ∈ keys (mnode j' c oc rl rr) := by
                intro hdk
                simp only [keys, List.mem_append] at hk
                rcases hk with hk | hk
                · have := h0 k hk; omega
                · simpa [keys] using hk
              constructor
              · intro hiU hiQ
                rcases hi' with rfl | hi'
                · simp only [descPath]
                  exact List.mem_cons_self _ _
                · simp only [descPath, List.mem_cons]
                  refine Or.inr ?_
                  by_cases hdk : dirC b ob k = 1
                  · rw [if_pos hdk] at hi' ⊢
                    exact (J4 k (hkmem hdk) hku i' hi').1 hiU hiQ
                  · rw [if_neg hdk] at hi' ⊢
                    exact hi'
              · intro hieq
                subst hieq
                rcases hi' with hieq2 | hi'
                · exact absurd hieq2.symm hfound
                · by_cases hdk : dirC b ob k = 1
                  · rw [if_pos hdk] at hi'
                    simp only [descPath, List.mem_cons]
                    refine Or.inr ?_
                    rw [if_pos hdk]
                    exact (J4 k (hkmem hdk) hku i' hi').2 rfl
                  · exfalso
                    rw [if_neg hdk] at hi'
                    have h1' : i' ∈ nodeIds l := descPath_sub_nodeIds l k i' hi'
                    have h2' : i' ∈ nodeIds (mnode j' c oc rl rr) :=
                      descPath_sub_nodeIds _ u i' hpath
                    exact hdisj i' h1' h2'
        · rw [if_neg hdir] at hpath
          rw [descLeaf, if_neg hdir] at hdesc
          rw [qInfo_node, if_neg hdir] at hq
          rcases l with ⟨j', k'⟩ | ⟨j', c, oc, ll, lr⟩
          · simp [descPath] at hpath
          · obtain ⟨tc, hsc, J1, J2, J3, J4⟩ :=
              ihl hl hndl u idU idQ hdesc hq hne hpath
            have hsub : ∀ k ∈ keys tc, k ∈ keys (mnode j' c oc ll lr) := fun k hk =>
              (keys_perm_of_leaves J2).mem_iff.2 (List.mem_cons_of_mem _ hk)
            refine ⟨mnode i b ob tc r, by rw [if_neg hdir, hsc]; rfl,
              ⟨hm, ?_, h1, ?_, J1, hr⟩, ?_, ?_, ?_⟩
            · intro k hk
              exact h0 k (hsub k hk)
            · intro v hv w hw
              simp only [keys, List.mem_append] at hv hw
              apply hagn
              · simp only [keys, List.mem_append]
                rcases hv with hv | hv
                · exact Or.inl (by simpa [keys] using hsub v hv)
                · exact Or.inr hv
              · simp only [keys, List.mem_append]
                rcases hw with hw | hw
                · exact Or.inl (by simpa [keys] using hsub w hw)
                · exact Or.inr hw
            · simp only [leaves]
              exact J2.append_right _
            · simp only [nodeIds]
              exact ((J3.append_right _).cons _).trans (List.Perm.swap _ _ _)
            · intro k hk hku i' hi'
              simp only [descPath, List.mem_cons] at hi'
              have hkmem : ¬ dirC b ob k = 1 → k ∈ keys (mnode j' c oc ll lr) := by
                intro hdk
                simp only [keys, List.mem_append] at hk
                rcases hk with hk | hk
                · simpa [keys] using hk
                · have := h1 k hk; omega
              constructor
              · intro hiU hiQ
                rcases hi' with rfl | hi'
                · simp only [descPath]
                  exact List.mem_cons_self _ _
                · simp only [descPath, List.mem_cons]
                  refine Or.inr ?_
                  by_cases hdk : dirC b ob k = 1
                  · rw [if_pos hdk] at hi' ⊢
                    exact hi'
                  · rw [if_neg hdk] at hi' ⊢
                    exact (J4 k (hkmem hdk) hku i' hi').1 hiU hiQ
              · intro hieq
                subst hieq
                rcases hi' with hieq2 | hi'
                · exact absurd hieq2.symm hfound
                · by_cases hdk : dirC b ob k = 1
                  · exfalso
                    rw [if_pos hdk] at hi'
                    have h1' : i' ∈ nodeIds r := descPath_sub_nodeIds r k i' hi'
                    have h2' : i' ∈ nodeIds (mnode j' c oc ll lr) :=
                      descPath_sub_nodeIds _ u i' hpath
                    exact hdisj i' h2' h1'
                  · rw [if_neg hdk] at hi'
                    simp only [descPath, List.mem_cons]
                    refine Or.inr ?_
                    rw [if_neg hdk]
                    exact (J4 k (hkmem hdk) hku i' hi').2 rfl

theorem findNodeOb_valid : ∀ (t : MTree), Inv t → ∀ (i : ℕ) (ob : ℕ),
    findNodeOb t i = some ob → validMask ob
  | mleaf _ _, _, i, ob, h => by cases h
  | mnode j b ob0 l r, hInv, i, ob, h => by
    obtain ⟨hm, h0, h1, hagn, hl, hr⟩ := hInv
    rw [findNodeOb] at h
    split at h
    · cases h
      exact hm
    · rcases hh : findNodeOb l i with _ | ob'
      · rw [hh, orElse_none_left] at h
        exact findNodeOb_valid r hr i ob h
      · rw [hh, orElse_some_left] at h
        injection h with h
        exact h ▸ findNodeOb_valid l hl i ob' hh

/-- Under the invariant, a live buffer's cell reads `UNUSED_NODE` exactly
when it is not linked into the tree. -/
theorem cellOb_unused_iff {t : MTree} {vac : ℕ → ℕ} (hg : goodTree t vac)
    {i : ℕ} (hi : i ∈ leafIds t) :
    cellOb ⟨some t, vac⟩ i = UNUSED_NODE ↔ i ∉ nodeIds t := by
  obtain ⟨hW1, hW2, hW3, hW4, hW5, hW6, hW7⟩ := hg
  constructor
  · intro h hmem
    rcases hob : findNodeOb t i with _ | ob
    · have := findNodeOb_isSome t i hmem
      rw [hob] at this
      cases this
    · have hv := findNodeOb_valid t hW6 i ob hob
      simp only [cellOb, hob, Option.getD_some] at h
      exact validMask_ne_unused hv h
  · intro hmem
    simp only [cellOb, findNodeOb_none t i hmem, Option.getD_none]
    exact hW5 i hi hmem

theorem leaves_key_unique : ∀ (t : MTree), Inv t → ∀ (i j : ℕ) (k : List ℕ),
    (i, k) ∈ leaves t → (j, k) ∈ leaves t → i = j
  | mleaf i0 k0, _, i, j, k, hi, hj => by
    simp only [leaves, List.mem_singleton, Prod.mk.injEq] at hi hj
    rw [hi.1, hj.1]
  | mnode j0 b ob l r, hInv, i, j, k, hi, hj => by
    obtain ⟨hm, h0, h1, hagn, hl, hr⟩ := hInv
    simp only [leaves, List.mem_append] at hi hj
    have hmeml : ∀ x : ℕ, (x, k) ∈ leaves l → k ∈ keys l := by
      intro x hx
      rw [keys_eq_map_leaves]
      exact List.mem_map.2 ⟨(x, k), hx, rfl⟩
    have hmemr : ∀ x : ℕ, (x, k) ∈ leaves r → k ∈ keys r := by
      intro x hx
      rw [keys_eq_map_leaves]
      exact List.mem_map.2 ⟨(x, k), hx, rfl⟩
    rcases hi with hi | hi <;> rcases hj with hj | hj
    · exact leaves_key_unique l hl i j k hi hj
    · have := h0 k (hmeml i hi)
      have := h1 k (hmemr j hj)
      omega
    · have := h0 k (hmeml j hj)
      have := h1 k (hmemr i hi)
      omega
    · exact leaves_key_unique r hr i j k hi hj

theorem cbDelete_node_red (i0 b0 ob0 : ℕ) (l0 r0 : MTree) (vac : ℕ → ℕ)
    (u : List ℕ) :
    cbDelete ⟨some (mnode i0 b0 ob0 l0 r0), vac⟩ u =
      (if (qInfo (mnode i0 b0 ob0 l0 r0) u).2.2 ≠ u
       then some (1, ⟨some (mnode i0 b0 ob0 l0 r0), vac⟩, [])
       else if (qInfo (mnode i0 b0 ob0 l0 r0) u).2.1 =
              (qInfo (mnode i0 b0 ob0 l0 r0) u).1 ∨
            cellOb ⟨some (mnode i0 b0 ob0 l0 r0), vac⟩
              (qInfo (mnode i0 b0 ob0 l0 r0) u).2.1 = UNUSED_NODE then
         some (0, ⟨some (collapseQ (mnode i0 b0 ob0 l0 r0) u),
            Function.update vac (qInfo (mnode i0 b0 ob0 l0 r0) u).1 UNUSED_NODE⟩,
           [Ev.cfree (qInfo (mnode i0 b0 ob0 l0 r0) u).2.1])
       else
         (salv (mnode i0 b0 ob0 l0 r0) u (qInfo (mnode i0 b0 ob0 l0 r0) u).2.1
            (qInfo (mnode i0 b0 ob0 l0 r0) u).1).map
           fun t' => (0, ⟨some t', vac⟩,
             [Ev.cfree (qInfo (mnode i0 b0 ob0 l0 r0) u).2.1])) := rfl

/-- Full specification of one `cb_tree_delete` call on a well-formed
state: the call never aborts (the salvage assertion holds), a missing key
leaves the state untouched, and a present key is removed exactly. -/
theorem cbDelete_spec (M : MState) (hWF : WFS M) (u : List ℕ) (hu : ValidKey u) :
    ∃ r M' ev, cbDelete M u = some (r, M', ev) ∧
      WFS M' ∧
      (r = 0 ∨ r = 1) ∧
      (r = 1 → u ∉ treeKeys M ∧ M' = M ∧ ev = []) ∧
      (r = 0 → u ∈ treeKeys M ∧
        (∀ v, v ∈ treeKeys M' ↔ v ∈ treeKeys M ∧ v ≠ u) ∧
        ∃ iU, ev = [Ev.cfree iU]) := by
  rcases M with ⟨t?, vac⟩
  rcases t? with _ | t
  · exact ⟨1, ⟨none, vac⟩, [], by simp [cbDelete], trivial, Or.inr rfl,
      fun _ => ⟨by simp [treeKeys], rfl, rfl⟩, by rintro ⟨⟩⟩
  · have hg : goodTree t vac := hWF
    obtain ⟨hW1, hW2, hW3, hW4, hW5, hW6, hW7⟩ := hg
    rcases t with ⟨i, k⟩ | ⟨i0, b0, ob0, l0, r0⟩
    · -- the root is a single leaf
      by_cases hku : k = u
      · subst hku
        have hvac : vac i = UNUSED_NODE := hW5 i (by simp [leafIds]) (by simp [nodeIds])
        have hco : cellOb ⟨some (mleaf i k), vac⟩ i = UNUSED_NODE := by
          simp [cellOb, findNodeOb, hvac]
        refine ⟨0, ⟨none, vac⟩, [Ev.cfree i], by simp [cbDelete, hco], trivial,
          Or.inl rfl, by rintro ⟨⟩, fun _ => ⟨by simp [treeKeys, keys], ?_, i, rfl⟩⟩
        intro v
        simp [treeKeys, keys]
      · refine ⟨1, ⟨some (mleaf i k), vac⟩, [], by simp [cbDelete, hku], hWF,
          Or.inr rfl, fun _ => ⟨?_, rfl, rfl⟩, by rintro ⟨⟩⟩
        simp only [treeKeys, keys, List.mem_singleton]
        exact fun h => hku (h ▸ rfl)
    · -- the root is an internal node
      have hred0 := cbDelete_node_red i0 b0 ob0 l0 r0 vac u
      set t : MTree := mnode i0 b0 ob0 l0 r0 with ht
      have htne : nodeIds t ≠ [] := by simp [ht, nodeIds]
      have hq22 : (qInfo t u).2.2 = (descLeaf t u).2 := by rw [qInfo_eq_descLeaf]
      have hq21 : (qInfo t u).2.1 = (descLeaf t u).1 := by rw [qInfo_eq_descLeaf]
      by_cases hku : (descLeaf t u).2 = u
      · have humem : u ∈ keys t := hku ▸ descLeaf_key_mem t u
        have hdescpair : descLeaf t u = ((descLeaf t u).1, u) :=
          Prod.ext_iff.2 ⟨rfl, hku⟩
        have hqpair : qInfo t u = ((qInfo t u).1, (descLeaf t u).1, u) := by
          have h2 := qInfo_eq_descLeaf t u
          calc qInfo t u = ((qInfo t u).1, (qInfo t u).2) := rfl
            _ = ((qInfo t u).1, (descLeaf t u).1, u) := by rw [h2, ← hdescpair]
        have hULmem : ((descLeaf t u).1, u) ∈ leaves t :=
          hdescpair ▸ descLeaf_mem_leaves t u
        have hkeyU : keyAt t (descLeaf t u).1 = some u :=
          mem_leaves_keyAt t _ u hW2 hULmem
        have hUleaf : (descLeaf t u).1 ∈ leafIds t := descLeaf_id_mem t u
        have hcond1 : ¬ ((qInfo t u).2.2 ≠ u) := by
          rw [hq22, hku]
          exact fun h => h rfl
        rw [if_neg hcond1] at hred0
        by_cases hbc : (descLeaf t u).1 = (qInfo t u).1 ∨
            cellOb ⟨some t, vac⟩ (descLeaf t u).1 = UNUSED_NODE
        · -- plain collapse: the leaf's cell is the parent or is vacant
          obtain ⟨K1, K2, K3, K4⟩ := collapseQ_main t hW6 htne u hku
          rw [if_pos (by rw [hq21]; exact hbc), hq21] at hred0
          have hkeysP : List.Perm (keys t) (u :: keys (collapseQ t u)) :=
            keys_perm_of_leaves K2
          have hleafP : List.Perm (leafIds t)
              ((descLeaf t u).1 :: leafIds (collapseQ t u)) :=
            leafIds_perm_of_leaves K2
          have hndL : ((descLeaf t u).1 :: leafIds (collapseQ t u)).Nodup :=
            hleafP.nodup_iff.1 hW2
          have hndN : ((qInfo t u).1 :: nodeIds (collapseQ t u)).Nodup :=
            K3.nodup_iff.1 hW3
          have hiU_not : (descLeaf t u).1 ∈ nodeIds t →
              (descLeaf t u).1 = (qInfo t u).1 := by
            intro hmem
            rcases hbc with h | h
            · exact h
            · exact absurd hmem ((cellOb_unused_iff
                ⟨hW1, hW2, hW3, hW4, hW5, hW6, hW7⟩ hUleaf).1 h)
          refine ⟨0, _, _, hred0, ?_, Or.inl rfl, by rintro ⟨⟩, fun _ => ⟨humem, ?_,
            (descLeaf t u).1, rfl⟩⟩
          · refine ⟨?_, List.nodup_cons.1 hndL |>.2, List.nodup_cons.1 hndN |>.2,
              ?_, ?_, K1, ?_⟩
            · intro k' hk'
              exact hW1 k' (hkeysP.mem_iff.2 (List.mem_cons_of_mem _ hk'))
            · intro j hj
              have hjold : j ∈ nodeIds t := K3.mem_iff.2 (List.mem_cons_of_mem _ hj)
              have hjq : j ≠ (qInfo t u).1 := by
                intro h
                exact (List.nodup_cons.1 hndN).1 (h ▸ hj)
              have hjU : j ≠ (descLeaf t u).1 := by
                intro h
                exact hjq (h ▸ hiU_not (h ▸ hjold))
              have hmem2 : j ∈ (descLeaf t u).1 :: leafIds (collapseQ t u) :=
                hleafP.mem_iff.1 (hW4 j hjold)
              rcases List.mem_cons.1 hmem2 with h | h
              · exact absurd h hjU
              · exact h
            · intro j hj hnj
              have hjU : j ≠ (descLeaf t u).1 := by
                intro h
                exact (List.nodup_cons.1 hndL).1 (h ▸ hj)
              have hjold : j ∈ leafIds t :=
                hleafP.mem_iff.2 (List.mem_cons_of_mem _ hj)
              show Function.update vac (qInfo t u).1 UNUSED_NODE j = UNUSED_NODE
              by_cases hjq : j = (qInfo t u).1
              · rw [hjq, Function.update_same]
              · rw [Function.update_noteq hjq]
                apply hW5 j hjold
                intro hmem
                rcases List.mem_cons.1 (K3.mem_iff.1 hmem) with h | h
                · exact hjq h
                · exact hnj h
            · intro j hj k' hk'
              have hjq : j ≠ (qInfo t u).1 := by
                intro h
                exact (List.nodup_cons.1 hndN).1 (h ▸ hj)
              have hjold : j ∈ nodeIds t := K3.mem_iff.2 (List.mem_cons_of_mem _ hj)
              have hjU : j ≠ (descLeaf t u).1 := by
                intro h
                exact hjq (h ▸ hiU_not (h ▸ hjold))
              have hjk : (j, k') ∈ leaves (collapseQ t u) := keyAt_mem_leaves _ j k' hk'
              have hjkold : (j, k') ∈ leaves t :=
                K2.mem_iff.2 (List.mem_cons_of_mem _ hjk)
              have hkold : keyAt t j = some k' := mem_leaves_keyAt t j k' hW2 hjkold
              have hkne : k' ≠ u := by
                intro h
                exact hjU (leaves_key_unique t hW6 j (descLeaf t u).1 u
                  (h ▸ hjkold) hULmem)
              have hkmem : k' ∈ keys t := by
                rw [keys_eq_map_leaves]
                exact List.mem_map.2 ⟨(j, k'), hjkold, rfl⟩
              exact K4 k' hkmem hkne j (hW7 j hjold k' hkold) hjq
          · intro v
            simp only [treeKeys]
            constructor
            · intro hv
              refine ⟨hkeysP.mem_iff.2 (List.mem_cons_of_mem _ hv), ?_⟩
              intro h
              have hnd := hkeysP.nodup_iff.1 (keys_nodup t hW6)
              exact (List.nodup_cons.1 hnd).1 (h ▸ hv)
            · intro ⟨hv, hvu⟩
              rcases List.mem_cons.1 (hkeysP.mem_iff.1 hv) with h | h
              · exact absurd h hvu
              · exact h
        · -- salvage: the leaf's cell is an in-use ancestor node
          rw [if_neg (by rw [hq21]; exact hbc), hq21] at hred0
          push_neg at hbc
          obtain ⟨hneq, hcell⟩ := hbc
          have hUmem : (descLeaf t u).1 ∈ nodeIds t := by
            by_contra h
            exact hcell ((cellOb_unused_iff ⟨hW1, hW2, hW3, hW4, hW5, hW6, hW7⟩
              hUleaf).2 h)
          have hUpath : (descLeaf t u).1 ∈ descPath t u :=
            hW7 (descLeaf t u).1 hUmem u hkeyU
          obtain ⟨t'', hsc, E1, E2, E3, E4⟩ := salv_main t hW6 hW3 u
            (descLeaf t u).1 (qInfo t u).1 hdescpair hqpair hneq hUpath
          rw [hsc] at hred0
          have hkeysP : List.Perm (keys t) (u :: keys t'') := keys_perm_of_leaves E2
          have hleafP : List.Perm (leafIds t) ((descLeaf t u).1 :: leafIds t'') :=
            leafIds_perm_of_leaves E2
          have hndL : ((descLeaf t u).1 :: leafIds t'').Nodup := hleafP.nodup_iff.1 hW2
          have hndN : ((descLeaf t u).1 :: nodeIds t'').Nodup := E3.nodup_iff.1 hW3
          refine ⟨0, _, _, hred0, ?_, Or.inl rfl, by rintro ⟨⟩, fun _ => ⟨humem, ?_,
            (descLeaf t u).1, rfl⟩⟩
          · refine ⟨?_, List.nodup_cons.1 hndL |>.2, List.nodup_cons.1 hndN |>.2,
              ?_, ?_, E1, ?_⟩
            · intro k' hk'
              exact hW1 k' (hkeysP.mem_iff.2 (List.mem_cons_of_mem _ hk'))
            · intro j hj
              have hjold : j ∈ nodeIds t := E3.mem_iff.2 (List.mem_cons_of_mem _ hj)
              have hjU : j ≠ (descLeaf t u).1 := by
                intro h
                exact (List.nodup_cons.1 hndN).1 (h ▸ hj)
              have hmem2 : j ∈ (descLeaf t u).1 :: leafIds t'' :=
                hleafP.mem_iff.1 (hW4 j hjold)
              rcases List.mem_cons.1 hmem2 with h | h
              · exact absurd h hjU
              · exact h
            · intro j hj hnj
              have hjU : j ≠ (descLeaf t u).1 := by
                intro h
                exact (List.nodup_cons.1 hndL).1 (h ▸ hj)
              have hjold : j ∈ leafIds t :=
                hleafP.mem_iff.2 (List.mem_cons_of_mem _ hj)
              apply hW5 j hjold
              intro hmem
              rcases List.mem_cons.1 (E3.mem_iff.1 hmem) with h | h
              · exact hjU h
              · exact hnj h
            · intro j hj k' hk'
              have hjU : j ≠ (descLeaf t u).1 := by
                intro h
                exact (List.nodup_cons.1 hndN).1 (h ▸ hj)
              have hjold : j ∈ nodeIds t := E3.mem_iff.2 (List.mem_cons_of_mem _ hj)
              have hjk : (j, k') ∈ leaves t'' := keyAt_mem_leaves _ j k' hk'
              have hjkold : (j, k') ∈ leaves t :=
                E2.mem_iff.2 (List.mem_cons_of_mem _ hjk)
              have hkold : keyAt t j = some k' := mem_leaves_keyAt t j k' hW2 hjkold
              have hkne : k' ≠ u := by
                intro h
                exact hjU (leaves_key_unique t hW6 j (descLeaf t u).1 u
                  (h ▸ hjkold) hULmem)
              have hkmem : k' ∈ keys t := by
                rw [keys_eq_map_leaves]
                exact List.mem_map.2 ⟨(j, k'), hjkold, rfl⟩
              have hpathold : j ∈ descPath t k' := hW7 j hjold k' hkold
              by_cases hjq : j = (qInfo t u).1
              · -- the relocated node: the vacated ancestor was on this key's path
                subst hjq
                have hqk : (qInfo t u).1 ∈ descPath t k' := hpathold
                have hUonk : (descLeaf t u).1 ∈ descPath t k' := by
                  rcases ht ▸ path_last_all (mnode i0 b0 ob0 l0 r0) hW3 u k'
                      (by rw [← ht]; exact hqk) (descLeaf t u).1
                      (by rw [← ht]; exact hUpath) with h | h
                  · exact absurd h hneq
                  · exact h
                exact (E4 k' hkmem hkne (descLeaf t u).1 hUonk).2 rfl
              · exact (E4 k' hkmem hkne j hpathold).1 hjU hjq
          · intro v
            simp only [treeKeys]
            constructor
            · intro hv
              refine ⟨hkeysP.mem_iff.2 (List.mem_cons_of_mem _ hv), ?_⟩
              intro h
              have hnd := hkeysP.nodup_iff.1 (keys_nodup t hW6)
              exact (List.nodup_cons.1 hnd).1 (h ▸ hv)
            · intro ⟨hv, hvu⟩
              rcases List.mem_cons.1 (hkeysP.mem_iff.1 hv) with h | h
              · exact absurd h hvu
              · exact h
      · -- the reached leaf does not hold the key: NotFound
        have hnm : u ∉ keys t := by
          intro hmem
          exact hku (descLeaf_self t hW6 u hmem)
        rw [if_pos (by rw [hq22]; exact hku)] at hred0
        exact ⟨1, _, _, hred0, hWF, Or.inr rfl, fun _ => ⟨hnm, rfl, rfl⟩, by rintro ⟨⟩⟩

/-! ## Byte-level consequences of descriptor agreement -/

theorem validCrit_sub : ∀ i < 8, validCrit (255 - 2 ^ i) := by decide

theorem byte_eq_of_bits {a c : ℕ} (ha : a < 256) (hc : c < 256)
    (h : ∀ i < 8, a.testBit i = c.testBit i) : a = c := by
  apply Nat.eq_of_testBit_eq
  intro i
  rcases Nat.lt_or_ge i 8 with hi | hi
  · exact h i hi
  · have h8 : (256 : ℕ) ≤ 2 ^ i := by
      calc (256 : ℕ) = 2 ^ 8 := by norm_num
        _ ≤ 2 ^ i := Nat.pow_le_pow_right (by omega) hi
    rw [Nat.testBit_lt_two_pow (by omega), Nat.testBit_lt_two_pow (by omega)]

/-- Keys agreeing at every descriptor strictly below offset `nb` have
equal bytes, and matching length tests, at every offset below `nb`. -/
theorem agree_byte_facts {u v : List ℕ} (hu : ValidKey u) (hv : ValidKey v)
    {nb m : ℕ} (hAg : Agree (nb, m) u v) :
    ∀ j < nb, getByte u j = getByte v j ∧ (j < u.length ↔ j < v.length) := by
  intro j hj
  have hlen : (j < u.length ↔ j < v.length) := by
    have h := hAg j PREFIX_MASK (Or.inr rfl) (Or.inl hj)
    rw [dirC_prefMask hu, dirC_prefMask hv] at h
    by_cases h1 : j < u.length <;> by_cases h2 : j < v.length <;>
      simp [h1, h2] at h ⊢
  refine ⟨?_, hlen⟩
  rcases Nat.lt_or_ge j u.length with hju | hju
  · apply byte_eq_of_bits (getByte_lt hu j) (getByte_lt hv j)
    intro i hi
    have h := hAg j (255 - 2 ^ i) (Or.inl (validCrit_sub i hi)) (Or.inl hj)
    rw [dirC_crit hi hu, dirC_crit hi hv] at h
    by_cases b1 : (getByte u j).testBit i <;> by_cases b2 : (getByte v j).testBit i <;>
      simp [b1, b2] at h ⊢
  · have hjv : v.length ≤ j := by
      by_contra h2
      push_neg at h2
      have := hlen.2 h2
      omega
    unfold getByte
    rw [List.getD_eq_default _ _ (by omega), List.getD_eq_default _ _ (by omega)]

theorem dirC_ge {b ob : ℕ} {k : List ℕ} (h : k.length ≤ b) : dirC b ob k = 0 := by
  unfold dirC
  rw [if_neg (by omega)]

theorem dirC_eq_dirBit {b ob : ℕ} {k : List ℕ} (h : b < k.length) :
    dirC b ob k = dirBit ob (getByte k b) := by
  unfold dirC
  rw [if_pos h]

theorem getByte_of_pref {p k : List ℕ} (h : List.IsPrefix p k) {b : ℕ}
    (hb : b < p.length) : getByte k b = getByte p b := by
  obtain ⟨r, rfl⟩ := h
  unfold getByte
  rw [List.getD_eq_getElem _ _ (by rw [List.length_append]; omega),
    List.getD_eq_getElem _ _ hb]
  exact List.getElem_append_left hb

theorem pref_of_getByte : ∀ (p k : List ℕ), p.length ≤ k.length →
    (∀ j < p.length, getByte k j = getByte p j) → List.IsPrefix p k
  | [], k, _, _ => ⟨k, rfl⟩
  | _ :: _, [], h, _ => by simp at h
  | a :: p', c :: k', h, hb => by
    have h0 : c = a := by
      have h1 := hb 0 (by simp)
      simpa [getByte] using h1
    have htail : List.IsPrefix p' k' := by
      apply pref_of_getByte p' k' (by simpa using h)
      intro j hj
      have h1 := hb (j + 1) (by simp; omega)
      simpa [getByte] using h1
    obtain ⟨r, hr⟩ := htail
    exact ⟨r, by rw [List.cons_append, hr, h0]⟩

theorem dir_eq_of_pref {p k : List ℕ} (h : List.IsPrefix p k) {b ob : ℕ}
    (hb : b < p.length) : dirC b ob k = dirC b ob p := by
  have hlen : b < k.length := lt_of_lt_of_le hb h.length_le
  rw [dirC_eq_dirBit hlen, dirC_eq_dirBit hb, getByte_of_pref h hb]

/-- Keys separated only at offset `≥ |p|` share `p`-prefixedness. -/
theorem pref_transfer {p k L : List ℕ} (hk : ValidKey k) (hL : ValidKey L)
    {b ob : ℕ} (hb : p.length ≤ b) (hAg : Agree (b, ob) k L)
    (hpL : List.IsPrefix p L) : List.IsPrefix p k := by
  have haf := agree_byte_facts hk hL hAg
  have hlenL : p.length ≤ L.length := hpL.length_le
  have hlenk : p.length ≤ k.length := by
    by_contra h
    push_neg at h
    have h2 := (haf k.length (by omega)).2
    exact absurd (h2.2 (by omega)) (lt_irrefl _)
  apply pref_of_getByte p k hlenk
  intro j hj
  rw [(haf j (by omega)).1]
  exact getByte_of_pref hpL hj

/-! ## Lexicographic order of the stored keys -/

theorem lex_of_bytes : ∀ (b : ℕ) (u v : List ℕ), b < u.length → b < v.length →
    (∀ j < b, getByte u j = getByte v j) → getByte u b < getByte v b →
    List.Lex (· < ·) u v
  | _, [], _, hu, _, _, _ => by simp at hu
  | _, _ :: _, [], _, hv, _, _ => by simp at hv
  | 0, x :: u', y :: v', _, _, _, hlt => by
    apply List.Lex.rel
    simpa [getByte] using hlt
  | b + 1, x :: u', y :: v', hu, hv, heq, hlt => by
    have h0 : x = y := by
      have h1 := heq 0 (by omega)
      simpa [getByte] using h1
    subst h0
    apply List.Lex.cons
    apply lex_of_bytes b u' v' (by simpa using hu) (by simpa using hv)
    · intro j hj
      have h1 := heq (j + 1) (by omega)
      simpa [getByte] using h1
    · simpa [getByte] using hlt

theorem lex_of_pref : ∀ (p v : List ℕ), List.IsPrefix p v → p ≠ v →
    List.Lex (· < ·) p v
  | [], v, _, hne => by
    cases v with
    | nil => exact absurd rfl hne
    | cons y v' => exact List.Lex.nil
  | a :: p', v, hpre, hne => by
    obtain ⟨r, rfl⟩ := hpre
    rw [List.cons_append]
    apply List.Lex.cons
    apply lex_of_pref p' (p' ++ r) ⟨r, rfl⟩
    intro h
    apply hne
    rw [List.cons_append, ← h]

/-- The in-order key list of an invariant tree is strictly increasing in
byte-lexicographic order. -/
theorem keys_sorted : ∀ t : MTree, Inv t → (∀ k ∈ keys t, ValidKey k) →
    List.Pairwise (fun a c => List.Lex (· < ·) a c) (keys t)
  | mleaf _ _, _, _ => by simp [keys]
  | mnode i b ob l r, hInv, hval => by
    obtain ⟨hm, h0, h1, hag, hl, hr⟩ := hInv
    simp only [keys, List.pairwise_append]
    refine ⟨keys_sorted l hl ?_, keys_sorted r hr ?_, ?_⟩
    · intro k hk
      exact hval k (by simp only [keys, List.mem_append]; exact Or.inl hk)
    · intro k hk
      exact hval k (by simp only [keys, List.mem_append]; exact Or.inr hk)
    · intro u hu v hv
      have huv : ValidKey u :=
        hval u (by simp only [keys, List.mem_append]; exact Or.inl hu)
      have hvv : ValidKey v :=
        hval v (by simp only [keys, List.mem_append]; exact Or.inr hv)
      have hAg : Agree (b, ob) u v :=
        hag u (List.mem_append_left _ hu) v (List.mem_append_right _ hv)
      have hu0 : dirC b ob u = 0 := h0 u hu
      have hv1 : dirC b ob v = 1 := h1 v hv
      have haf := agree_byte_facts huv hvv hAg
      rcases hm with hc | hpm
      · rcases validCrit_cases hc with ⟨i, hi, rfl⟩
        rw [dirC_crit hi huv] at hu0
        rw [dirC_crit hi hvv] at hv1
        have hbu : ¬ (getByte u b).testBit i := by
          intro h
          rw [if_pos h] at hu0
          omega
        have hbv : (getByte v b).testBit i := by
          by_contra h
          rw [if_neg h] at hv1
          omega
        have htbpos : 0 < tb (255 - 2 ^ i) := tb_lt_of_crit (validCrit_sub i hi)
        have hlen := hAg b PREFIX_MASK (Or.inr rfl)
          (Or.inr ⟨rfl, by rw [tb_prefMask]; exact htbpos⟩)
        rw [dirC_prefMask huv, dirC_prefMask hvv] at hlen
        have hbvlen : b < v.length := by
          by_contra h
          have h2 : getByte v b = 0 := by
            unfold getByte
            rw [List.getD_eq_default _ _ (by omega)]
          rw [h2, Nat.zero_testBit] at hbv
          exact Bool.false_ne_true hbv
        have hbulen : b < u.length := by
          by_cases h : b < u.length
          · exact h
          · rw [if_neg h, if_pos hbvlen] at hlen
            omega
        have hhigh : ∀ j, i < j → (getByte u b).testBit j = (getByte v b).testBit j := by
          intro j hij
          rcases Nat.lt_or_ge j 8 with hj8 | hj8
          · have hplt : tb (255 - 2 ^ j) < tb (255 - 2 ^ i) := by
              rw [tb_crit j hj8, tb_crit i hi]
              have hp1 : 2 ^ i < 2 ^ j := Nat.pow_lt_pow_right (by omega) hij
              have hp2 : 2 ^ j ≤ 2 ^ 8 := Nat.pow_le_pow_right (by omega) (by omega)
              have hp3 : (2 : ℕ) ^ 8 = 256 := by norm_num
              omega
            have h := hAg b (255 - 2 ^ j) (Or.inl (validCrit_sub j hj8))
              (Or.inr ⟨rfl, hplt⟩)
            rw [dirC_crit hj8 huv, dirC_crit hj8 hvv] at h
            by_cases b1 : (getByte u b).testBit j <;>
              by_cases b2 : (getByte v b).testBit j <;> simp [b1, b2] at h ⊢
          · have h8 : (256 : ℕ) ≤ 2 ^ j := by
              calc (256 : ℕ) = 2 ^ 8 := by norm_num
                _ ≤ 2 ^ j := Nat.pow_le_pow_right (by omega) hj8
            have hcu : getByte u b < 2 ^ j := lt_of_lt_of_le (getByte_lt huv b) h8
            have hcv : getByte v b < 2 ^ j := lt_of_lt_of_le (getByte_lt hvv b) h8
            rw [Nat.testBit_lt_two_pow hcu, Nat.testBit_lt_two_pow hcv]
        have hblt : getByte u b < getByte v b :=
          Nat.lt_of_testBit i (by simpa using hbu) hbv hhigh
        exact lex_of_bytes b u v hbulen hbvlen (fun j hj => (haf j hj).1) hblt
      · subst hpm
        rw [dirC_prefMask huv] at hu0
        rw [dirC_prefMask hvv] at hv1
        have hul : ¬ b < u.length := by
          intro h
          rw [if_pos h] at hu0
          omega
        have hvl : b < v.length := by
          by_contra h
          rw [if_neg h] at hv1
          omega
        have hpre : List.IsPrefix u v := by
          apply pref_of_getByte u v (by omega)
          intro j hj
          exact ((haf j (by omega)).1).symm
        apply lex_of_pref u v hpre
        intro h
        rw [h] at hul
        exact hul hvl

/-! ## The path-order invariant -/

theorem rootPos_posLt (c : MTree) (hc : Inv c) (b ob : ℕ) (hm : validMask ob)
    (hAg : ∀ u ∈ keys c, ∀ v ∈ keys c, Agree (b, ob) u v)
    (hsame : ∀ u ∈ keys c, ∀ v ∈ keys c, dirC b ob u = dirC b ob v) :
    ∀ q ∈ rootPos c, posLt (b, ob) q := by
  rcases c with ⟨i, k⟩ | ⟨i', b', ob', l', r'⟩
  · intro q hq
    simp [rootPos] at hq
  · intro q hq
    have hq2 : q = (b', ob') := by
      simpa [rootPos, Option.mem_def, eq_comm] using hq
    subst hq2
    obtain ⟨hm', hd0, hd1, hag', hl', hr'⟩ := hc
    obtain ⟨u, hu⟩ := List.exists_mem_of_ne_nil _ (keys_ne_nil l')
    obtain ⟨v, hv⟩ := List.exists_mem_of_ne_nil _ (keys_ne_nil r')
    have hu' : u ∈ keys (mnode i' b' ob' l' r') := by
      simp only [keys, List.mem_append]
      exact Or.inl hu
    have hv' : v ∈ keys (mnode i' b' ob' l' r') := by
      simp only [keys, List.mem_append]
      exact Or.inr hv
    by_contra hne
    have hdu : dirC b' ob' u = 0 := hd0 u hu
    have hdv : dirC b' ob' v = 1 := hd1 v hv
    rcases posLt_total hm hm' hne with ⟨hb, hob⟩ | hlt
    · subst hb
      subst hob
      have h := hsame u hu' v hv'
      rw [hdu, hdv] at h
      omega
    · have h := hAg u hu' v hv' b' ob' hm' hlt
      rw [hdu, hdv] at h
      omega

/-- The order invariant implies the strict path ordering of descriptors
(C7): every child node's descriptor sorts strictly after its parent's. -/
theorem inv_pathOrder : ∀ t : MTree, Inv t → PathOrder t
  | mleaf _ _, _ => trivial
  | mnode i b ob l r, hInv => by
    obtain ⟨hm, h0, h1, hag, hl, hr⟩ := hInv
    refine ⟨?_, ?_, inv_pathOrder l hl, inv_pathOrder r hr⟩
    · exact rootPos_posLt l hl b ob hm
        (fun u hu v hv =>
          hag u (List.mem_append_left _ hu) v (List.mem_append_left _ hv))
        (fun u hu v hv => by rw [h0 u hu, h0 v hv])
    · exact rootPos_posLt r hr b ob hm
        (fun u hu v hv =>
          hag u (List.mem_append_right _ hu) v (List.mem_append_right _ hv))
        (fun u hu v hv => by rw [h1 u hu, h1 v hv])

/-- Any two distinct keys of an invariant subtree all of whose descriptor
offsets are at least `lb` are separated at a descriptor of offset at
least `lb`, below which they agree. -/
theorem sep_in_tree : ∀ t : MTree, Inv t → PathOrder t → ∀ lb : ℕ,
    (∀ q ∈ rootPos t, lb ≤ q.1) →
    ∀ u ∈ keys t, ∀ v ∈ keys t, u ≠ v →
    ∃ b ob, validMask ob ∧ lb ≤ b ∧ Agree (b, ob) u v ∧
      dirC b ob u ≠ dirC b ob v
  | mleaf _ k, _, _, lb, _, u, hu, v, hv, hne => by
    simp only [keys, List.mem_singleton] at hu hv
    subst hu
    subst hv
    exact absurd rfl hne
  | mnode i b ob l r, hInv, hPO, lb, hroot, u, hu, v, hv, hne => by
    obtain ⟨hm, h0, h1, hag, hl, hr⟩ := hInv
    obtain ⟨hpl, hpr, hPl, hPr⟩ := hPO
    have hlb : lb ≤ b := hroot (b, ob) rfl
    simp only [keys, List.mem_append] at hu hv
    rcases hu with hu | hu <;> rcases hv with hv | hv
    · refine sep_in_tree l hl hPl lb ?_ u hu v hv hne
      intro q hq
      have h := hpl q hq
      unfold posLt at h
      dsimp only at h
      rcases h with h | ⟨h, _⟩ <;> omega
    · exact ⟨b, ob, hm, hlb,
        hag u (List.mem_append_left _ hu) v (List.mem_append_right _ hv),
        by rw [h0 u hu, h1 v hv]; omega⟩
    · exact ⟨b, ob, hm, hlb,
        hag u (List.mem_append_right _ hu) v (List.mem_append_left _ hv),
        by rw [h1 u hu, h0 v hv]; omega⟩
    · refine sep_in_tree r hr hPr lb ?_ u hu v hv hne
      intro q hq
      have h := hpr q hq
      unfold posLt at h
      dsimp only at h
      rcases h with h | ⟨h, _⟩ <;> omega

/-! ## The prefix walk -/

/-- Once the descent reaches a subtree all of whose offsets are at least
`|p|`, the walk keeps descending left without updating the entry, and the
reached leaf is the `descLeaf` of `p`. -/
theorem walk_stable : ∀ (t : MTree) (p : List ℕ) (entry : MTree), Inv t →
    PathOrder t → (∀ q ∈ rootPos t, p.length ≤ q.1) →
    walkDesc t p entry = (entry, (descLeaf t p).2)
  | mleaf i k, p, entry, _, _, _ => by simp [walkDesc, descLeaf]
  | mnode i b ob l r, p, entry, hInv, hPO, hroot => by
    obtain ⟨hm, h0, h1, hag, hl, hr⟩ := hInv
    obtain ⟨hpl, hpr, hPl, hPr⟩ := hPO
    have hpb : p.length ≤ b := hroot (b, ob) rfl
    have hroot_l : ∀ q ∈ rootPos l, p.length ≤ q.1 := by
      intro q hq
      have h2 := hpl q hq
      unfold posLt at h2
      dsimp only at h2
      rcases h2 with h2 | ⟨h2, _⟩ <;> omega
    simp only [walkDesc, descLeaf]
    rw [if_neg (by omega : ¬ b < p.length), dirC_ge hpb,
      if_neg (by omega : ¬ (0 : ℕ) = 1)]
    exact walk_stable l p entry hl hPl hroot_l

/-- Main lemma about the entry search of the prefix walk: the reached key
is the `descLeaf` of `p`; the final entry subtree is invariant, drawn from
the initial entry, contains every `p`-prefixed key of the initial entry,
and each of its keys separates from the reached key only at offsets at
least `|p|`. -/
theorem walk_main : ∀ (t : MTree) (p : List ℕ) (entry : MTree), Inv t →
    PathOrder t → Inv entry →
    (∀ k ∈ keys t, k ∈ keys entry) →
    (∀ k, List.IsPrefix p k → k ∈ keys entry → k ∈ keys t) →
    (∀ k ∈ keys entry, k ∉ keys t → ∀ v ∈ keys t,
      ∃ b ob, validMask ob ∧ p.length ≤ b ∧ Agree (b, ob) k v ∧
        dirC b ob k ≠ dirC b ob v) →
    (walkDesc t p entry).2 = (descLeaf t p).2 ∧
    Inv (walkDesc t p entry).1 ∧
    (∀ k ∈ keys (walkDesc t p entry).1, k ∈ keys entry) ∧
    (∀ k, List.IsPrefix p k → k ∈ keys entry → k ∈ keys (walkDesc t p entry).1) ∧
    (∀ k ∈ keys (walkDesc t p entry).1, k ≠ (walkDesc t p entry).2 →
      ∃ b ob, validMask ob ∧ p.length ≤ b ∧
        Agree (b, ob) k (walkDesc t p entry).2 ∧
        dirC b ob k ≠ dirC b ob (walkDesc t p entry).2)
  | mleaf i k0, p, entry, _, _, hIe, hsub, hpre, hsep => by
    refine ⟨by simp [walkDesc, descLeaf], by simpa [walkDesc] using hIe,
      by simp only [walkDesc]; exact fun k hk => hk,
      by simp only [walkDesc]; exact fun k _ hk => hk, ?_⟩
    simp only [walkDesc]
    intro k hk hne
    refine hsep k hk ?_ k0 (by simp [keys])
    simp only [keys, List.mem_singleton]
    exact hne
  | mnode i b ob l r, p, entry, hInv, hPO, hIe, hsub, hpre, hsep => by
    obtain ⟨hm, h0, h1, hag, hl, hr⟩ := hInv
    obtain ⟨hpl, hpr, hPl, hPr⟩ := hPO
    by_cases hb : b < p.length
    · have hbd : dirC b ob p = dirBit ob (getByte p b) := dirC_eq_dirBit hb
      by_cases hd : dirBit ob (getByte p b) = 1
      · -- descend right, the entry becomes the right child
        have hred : walkDesc (mnode i b ob l r) p entry = walkDesc r p r := by
          simp only [walkDesc]
          rw [if_pos hb, if_pos hd]
        have hdesc : descLeaf (mnode i b ob l r) p = descLeaf r p := by
          simp only [descLeaf]
          rw [hbd, if_pos hd]
        obtain ⟨W1, W2, W3, W4, W5⟩ := walk_main r p r hr hPr hr
          (fun k hk => hk) (fun k _ hk => hk)
          (fun k hk hnk => absurd hk hnk)
        rw [hred, hdesc]
        refine ⟨W1, W2, ?_, ?_, W5⟩
        · intro k hk
          exact hsub k (by simp only [keys, List.mem_append]; exact Or.inr (W3 k hk))
        · intro k hpk hk
          have hkt : k ∈ keys (mnode i b ob l r) := hpre k hpk hk
          simp only [keys, List.mem_append] at hkt
          rcases hkt with hkl | hkr
          · have hdk : dirC b ob k = dirC b ob p := dir_eq_of_pref hpk hb
            rw [h0 k hkl, hbd, hd] at hdk
            omega
          · exact W4 k hpk hkr
      · -- descend left, the entry becomes the left child
        have hred : walkDesc (mnode i b ob l r) p entry = walkDesc l p l := by
          simp only [walkDesc]
          rw [if_pos hb, if_neg hd]
        have hdesc : descLeaf (mnode i b ob l r) p = descLeaf l p := by
          simp only [descLeaf]
          rw [hbd, if_neg hd]
        obtain ⟨W1, W2, W3, W4, W5⟩ := walk_main l p l hl hPl hl
          (fun k hk => hk) (fun k _ hk => hk)
          (fun k hk hnk => absurd hk hnk)
        rw [hred, hdesc]
        refine ⟨W1, W2, ?_, ?_, W5⟩
        · intro k hk
          exact hsub k (by simp only [keys, List.mem_append]; exact Or.inl (W3 k hk))
        · intro k hpk hk
          have hkt : k ∈ keys (mnode i b ob l r) := hpre k hpk hk
          simp only [keys, List.mem_append] at hkt
          rcases hkt with hkl | hkr
          · exact W4 k hpk hkl
          · have hdk : dirC b ob k = dirC b ob p := dir_eq_of_pref hpk hb
            rw [h1 k hkr, hbd] at hdk
            exact absurd hdk.symm hd
    · -- all further offsets are at least `|p|`: the entry is final
      have hroot : ∀ q ∈ rootPos (mnode i b ob l r), p.length ≤ q.1 := by
        intro q hq
        have hq2 : q = (b, ob) := by
          simpa [rootPos, Option.mem_def, eq_comm] using hq
        subst hq2
        dsimp only
        omega
      have hst := walk_stable (mnode i b ob l r) p entry
        ⟨hm, h0, h1, hag, hl, hr⟩ ⟨hpl, hpr, hPl, hPr⟩ hroot
      rw [hst]
      refine ⟨rfl, hIe, fun k hk => hk, fun k _ hk => hk, ?_⟩
      intro k hk hne
      by_cases hkt : k ∈ keys (mnode i b ob l r)
      · exact sep_in_tree (mnode i b ob l r) ⟨hm, h0, h1, hag, hl, hr⟩
          ⟨hpl, hpr, hPl, hPr⟩ p.length hroot k hkt
          ((descLeaf (mnode i b ob l r) p).2)
          (descLeaf_key_mem (mnode i b ob l r) p) hne
      · exact hsep k hk hkt ((descLeaf (mnode i b ob l r) p).2)
          (descLeaf_key_mem (mnode i b ob l r) p)

/-! ## Reachable states are well-formed -/

theorem reach_WFS : ∀ {M : MState}, Reach M → WFS M := by
  intro M h
  induction h with
  | empty v => trivial
  | ins hR hu hf heq IH =>
    have hspec := cbInsert_spec _ IH _ hu _ hf
    rw [heq] at hspec
    exact hspec.1
  | del hR hu heq IH =>
    obtain ⟨r', M'', ev', heq', hWF', _⟩ := cbDelete_spec _ IH _ hu
    rw [heq] at heq'
    simp only [Option.some.injEq, Prod.mk.injEq] at heq'
    obtain ⟨-, h2, -⟩ := heq'
    rw [h2]
    exact hWF'

theorem isPrefixOf_iff {p k : List ℕ} : p.isPrefixOf k = true ↔ List.IsPrefix p k :=
  List.isPrefixOf_iff_prefix

/-- The prefix walk on a well-formed state visits exactly the stored keys
with the given prefix, each once, in strictly increasing lexicographic
order. -/
theorem walkM_spec (M : MState) (hWF : WFS M) (p : List ℕ) :
    List.Pairwise (fun a c => List.Lex (· < ·) a c) (walkM M p) ∧
    ∀ k, k ∈ walkM M p ↔ k ∈ treeKeys M ∧ List.IsPrefix p k := by
  rcases M with ⟨t?, vac⟩
  rcases t? with _ | t
  · constructor
    · simp [walkM]
    · intro k
      simp [walkM, treeKeys]
  · obtain ⟨hW1, hW2, hW3, hW4, hW5, hW6, hW7⟩ := hWF
    have hPO := inv_pathOrder t hW6
    obtain ⟨W1, W2, W3, W4, W5⟩ := walk_main t p t hW6 hPO hW6
      (fun k hk => hk) (fun k _ hk => hk) (fun k hk hnk => absurd hk hnk)
    have hLkeys : (walkDesc t p t).2 ∈ keys t := by
      rw [W1]
      exact descLeaf_key_mem t p
    have hLval : ValidKey (walkDesc t p t).2 := hW1 _ hLkeys
    have hred : walkM ⟨some t, vac⟩ p =
        (if (walkDesc t p t).2.length < p.length then []
         else if ¬ p.isPrefixOf (walkDesc t p t).2 then []
         else keys (walkDesc t p t).1) := rfl
    by_cases hpL : List.IsPrefix p (walkDesc t p t).2
    · have hlen : ¬ (walkDesc t p t).2.length < p.length := by
        have := hpL.length_le
        omega
      have hpf : p.isPrefixOf (walkDesc t p t).2 = true := isPrefixOf_iff.2 hpL
      rw [if_neg hlen, if_neg (by rw [hpf]; exact fun h => h rfl)] at hred
      rw [hred]
      constructor
      · exact keys_sorted _ W2 (fun k hk => hW1 k (W3 k hk))
      · intro k
        constructor
        · intro hk
          refine ⟨W3 k hk, ?_⟩
          by_cases hne : k = (walkDesc t p t).2
          · rw [hne]
            exact hpL
          · obtain ⟨b, ob, hmv, hpb, hAg, _⟩ := W5 k hk hne
            exact pref_transfer (hW1 k (W3 k hk)) hLval hpb hAg hpL
        · intro ⟨hkt, hpk⟩
          exact W4 k hpk hkt
    · have hnone : ∀ k, ¬ (k ∈ treeKeys ⟨some t, vac⟩ ∧ List.IsPrefix p k) := by
        intro k ⟨hkt, hpk⟩
        have hkE : k ∈ keys (walkDesc t p t).1 := W4 k hpk hkt
        by_cases hne : k = (walkDesc t p t).2
        · exact hpL (hne ▸ hpk)
        · obtain ⟨b, ob, hmv, hpb, hAg, _⟩ := W5 k hkE hne
          exact hpL (pref_transfer hLval (hW1 k hkt) hpb (agree_symm hAg) hpk)
      have hempty : walkM ⟨some t, vac⟩ p = [] := by
        rw [hred]
        by_cases hlen : (walkDesc t p t).2.length < p.length
        · rw [if_pos hlen]
        · rw [if_neg hlen, if_pos ?_]
          intro h
          exact hpL (isPrefixOf_iff.1 h)
      rw [hempty]
      constructor
      · simp
      · intro k
        simp only [List.not_mem_nil, false_iff]
        exact hnone k

theorem le_foldr_max : ∀ (l : List ℕ) (i : ℕ), i ∈ l → i ≤ l.foldr max 0
  | a :: l, i, hi => by
    rcases List.mem_cons.1 hi with rfl | hi
    · exact le_max_left _ _
    · exact le_trans (le_foldr_max l i hi) (le_max_right _ _)

theorem freshOf_fresh (M : MState) : FreshId M (freshOf M) := by
  rcases M with ⟨t?, vac⟩
  rcases t? with _ | t
  · trivial
  · intro hmem
    have := le_foldr_max _ _ hmem
    simp only [freshOf] at this
    omega

/-- Inserting a list of valid keys into a well-formed state preserves
well-formedness, and the stored keys afterwards are exactly the inserted
ones together with those already present. -/
theorem insAll_spec : ∀ (us : List (List ℕ)) (M : MState), WFS M →
    (∀ u ∈ us, ValidKey u) →
    WFS (insAll M us) ∧
    ∀ v, v ∈ treeKeys (insAll M us) ↔ v ∈ us ∨ v ∈ treeKeys M
  | [], M, hWF, _ => ⟨hWF, by simp [insAll]⟩
  | u :: us, M, hWF, hval => by
    have hu : ValidKey u := hval u (by simp)
    have hspec := cbInsert_spec M hWF u hu (freshOf M) (freshOf_fresh M)
    obtain ⟨hWF1, hres, hdup, hins⟩ := hspec
    have hkeys1 : ∀ v, v ∈ treeKeys (cbInsert M u (some (freshOf M))).2.1 ↔
        v = u ∨ v ∈ treeKeys M := by
      rcases hres with h1 | h0
      · intro v
        obtain ⟨humem, heqM, -⟩ := hdup h1
        rw [heqM]
        constructor
        · exact Or.inr
        · rintro (rfl | hv)
          · exact humem
          · exact hv
      · exact (hins h0).2.2
    obtain ⟨hWF2, hkeys2⟩ := insAll_spec us (cbInsert M u (some (freshOf M))).2.1
      hWF1 (fun w hw => hval w (List.mem_cons_of_mem _ hw))
    refine ⟨by rw [insAll]; exact hWF2, ?_⟩
    intro v
    rw [insAll]
    rw [hkeys2 v]
    rw [hkeys1 v]
    simp only [List.mem_cons]
    tauto

theorem reach_two_keys :
    Reach (cbInsert (cbInsert ⟨none, fun _ => 0⟩ [97] (some 0)).2.1 [98] (some 1)).2.1 :=
  @Reach.ins (cbInsert ⟨none, fun _ => 0⟩ [97] (some 0)).2.1 [98] 1
    (cbInsert (cbInsert ⟨none, fun _ => 0⟩ [97] (some 0)).2.1 [98] (some 1)).1
    (cbInsert (cbInsert ⟨none, fun _ => 0⟩ [97] (some 0)).2.1 [98] (some 1)).2.1
    (cbInsert (cbInsert ⟨none, fun _ => 0⟩ [97] (some 0)).2.1 [98] (some 1)).2.2
    (@Reach.ins ⟨none, fun _ => 0⟩ [97] 0
      (cbInsert ⟨none, fun _ => 0⟩ [97] (some 0)).1
      (cbInsert ⟨none, fun _ => 0⟩ [97] (some 0)).2.1
      (cbInsert ⟨none, fun _ => 0⟩ [97] (some 0)).2.2
      (Reach.empty (fun _ => 0)) (by decide) trivial rfl)
    (by decide) (by intro h; exact absurd h (by decide)) rfl

/-! ## The claims -/

/-- Claim C1: round-trip membership.  For every finite list of distinct
terminator-free byte strings, after inserting all of them into a tree
created empty, `contains` returns true exactly for the inserted keys
(the reached leaf's key is compared byte-for-byte, so a partial match
during descent does not count as membership). -/
theorem claim_C1 (us : List (List ℕ)) (hval : ∀ u ∈ us, ValidKey u)
    (hnd : us.Nodup) (v : ℕ → ℕ) (k : List ℕ) :
    cbContains (insAll ⟨none, v⟩ us) k = true ↔ k ∈ us := by
  obtain ⟨hWF, hkeys⟩ := insAll_spec us ⟨none, v⟩ trivial hval
  rw [cbContains_iff _ hWF k, hkeys k]
  simp [treeKeys]

theorem claim_C1_witness :
    cbContains (insAll ⟨none, fun _ => 0⟩ [[97], [98, 99]]) [97] = true ↔
      [97] ∈ [[97], [98, 99]] :=
  claim_C1 [[97], [98, 99]] (by decide) (by decide) (fun _ => 0) [97]

/-- Claim C2: delete semantics.  On every reachable state, deleting a
present key returns Deleted (0), afterwards `contains` of that key is
false while every other previously-present key remains present, and a
second delete of the same key returns NotFound (1) leaving the state
unchanged; deleting an absent key returns NotFound and leaves the state
unmodified. -/
theorem claim_C2 (M : MState) (hR : Reach M) (k : List ℕ) (hk : ValidKey k) :
    ∃ r M' ev, cbDelete M k = some (r, M', ev) ∧
      (k ∈ treeKeys M →
        r = 0 ∧ cbContains M' k = false ∧
        (∀ v ∈ treeKeys M, v ≠ k → v ∈ treeKeys M') ∧
        ∃ M'' ev', cbDelete M' k = some (1, M'', ev') ∧ M'' = M') ∧
      (k ∉ treeKeys M → r = 1 ∧ M' = M) := by
  have hWF := reach_WFS hR
  obtain ⟨r, M', ev, heq, hWF', hr01, h1, h0⟩ := cbDelete_spec M hWF k hk
  refine ⟨r, M', ev, heq, ?_, ?_⟩
  · intro hmem
    have hr0 : r = 0 := by
      rcases hr01 with h | h
      · exact h
      · exact absurd hmem (h1 h).1
    obtain ⟨-, hiff, -⟩ := h0 hr0
    refine ⟨hr0, ?_, ?_, ?_⟩
    · rw [Bool.eq_false_iff]
      intro hc
      have hmem' := (cbContains_iff M' hWF' k).1 hc
      exact ((hiff k).1 hmem').2 rfl
    · intro v hv hne
      exact (hiff v).2 ⟨hv, hne⟩
    · obtain ⟨r2, M2, ev2, heq2, hWF2, hr2, h1', h0'⟩ := cbDelete_spec M' hWF' k hk
      have hnot : k ∉ treeKeys M' := fun h => ((hiff k).1 h).2 rfl
      have hr21 : r2 = 1 := by
        rcases hr2 with h | h
        · exact absurd (h0' h).1 hnot
        · exact h
      obtain ⟨-, hM2, -⟩ := h1' hr21
      exact ⟨M2, ev2, by rw [← hr21]; exact heq2, hM2⟩
  · intro hnm
    have hr1 : r = 1 := by
      rcases hr01 with h | h
      · exact absurd (h0 h).1 hnm
      · exact h
    obtain ⟨-, hM', -⟩ := h1 hr1
    exact ⟨hr1, hM'⟩

theorem claim_C2_witness :
    ∃ r M' ev,
      cbDelete (cbInsert ⟨none, fun _ => 0⟩ [97] (some 0)).2.1 [97] =
        some (r, M', ev) ∧
      ([97] ∈ treeKeys (cbInsert ⟨none, fun _ => 0⟩ [97] (some 0)).2.1 →
        r = 0 ∧ cbContains M' [97] = false ∧
        (∀ v ∈ treeKeys (cbInsert ⟨none, fun _ => 0⟩ [97] (some 0)).2.1,
          v ≠ [97] → v ∈ treeKeys M') ∧
        ∃ M'' ev', cbDelete M' [97] = some (1, M'', ev') ∧ M'' = M') ∧
      ([97] ∉ treeKeys (cbInsert ⟨none, fun _ => 0⟩ [97] (some 0)).2.1 →
        r = 1 ∧ M' = (cbInsert ⟨none, fun _ => 0⟩ [97] (some 0)).2.1) :=
  claim_C2 _ (Reach.ins (Reach.empty (fun _ => 0)) (by decide) trivial rfl)
    [97] (by decide)

/-- Claim C3: prefix walk correctness and order.  On every reachable
state, the walk with prefix `p` visits exactly the stored keys having `p`
as a prefix, each exactly once, in strictly increasing byte-lexicographic
order (zero visits when no stored key has prefix `p`, all stored keys
when `p` is empty). -/
theorem claim_C3 (M : MState) (hR : Reach M) (p : List ℕ) :
    List.Pairwise (fun a c => List.Lex (· < ·) a c) (walkM M p) ∧
    ∀ k, k ∈ walkM M p ↔ k ∈ treeKeys M ∧ List.IsPrefix p k :=
  walkM_spec M (reach_WFS hR) p

theorem claim_C3_witness :
    List.Pairwise (fun a c => List.Lex (· < ·) a c)
      (walkM (cbInsert ⟨none, fun _ => 0⟩ [97] (some 0)).2.1 [97]) ∧
    ∀ k, k ∈ walkM (cbInsert ⟨none, fun _ => 0⟩ [97] (some 0)).2.1 [97] ↔
      k ∈ treeKeys (cbInsert ⟨none, fun _ => 0⟩ [97] (some 0)).2.1 ∧
      List.IsPrefix [97] k :=
  claim_C3 _ (Reach.ins (Reach.empty (fun _ => 0)) (by decide) trivial rfl) [97]

/-- Claim C4 (amended): duplicate rejection.  Inserting a fresh key
returns Inserted (0); re-inserting the same key returns AlreadyPresent (1)
and leaves the state unchanged — but the second call is not
allocation-free: it first allocates a scratch buffer and then releases it
through the C library's `free` (critbit.c line 338). -/
theorem claim_C4 (M : MState) (hWF : WFS M) (u : List ℕ) (hu : ValidKey u)
    (f : ℕ) (hf : FreshId M f) (hnot : u ∉ treeKeys M) (g : ℕ)
    (hg : FreshId (cbInsert M u (some f)).2.1 g) :
    (cbInsert M u (some f)).1 = 0 ∧
    (cbInsert (cbInsert M u (some f)).2.1 u (some g)).1 = 1 ∧
    (cbInsert (cbInsert M u (some f)).2.1 u (some g)).2.1 =
      (cbInsert M u (some f)).2.1 ∧
    (cbInsert (cbInsert M u (some f)).2.1 u (some g)).2.2 =
      [Ev.alloc g, Ev.cfree g] := by
  obtain ⟨hWF1, hres1, hdup1, hins1⟩ := cbInsert_spec M hWF u hu f hf
  have h0 : (cbInsert M u (some f)).1 = 0 := by
    rcases hres1 with h | h
    · exact absurd (hdup1 h).1 hnot
    · exact h
  have humem : u ∈ treeKeys (cbInsert M u (some f)).2.1 :=
    ((hins1 h0).2.2 u).2 (Or.inl rfl)
  obtain ⟨hWF2, hres2, hdup2, hins2⟩ :=
    cbInsert_spec (cbInsert M u (some f)).2.1 hWF1 u hu g hg
  have h1 : (cbInsert (cbInsert M u (some f)).2.1 u (some g)).1 = 1 := by
    rcases hres2 with h | h
    · exact h
    · exact absurd humem (hins2 h).1
  obtain ⟨-, hM, hev⟩ := hdup2 h1
  exact ⟨h0, h1, hM, hev⟩

theorem claim_C4_witness :
    (cbInsert ⟨none, fun _ => 0⟩ [97] (some 0)).1 = 0 ∧
    (cbInsert (cbInsert ⟨none, fun _ => 0⟩ [97] (some 0)).2.1 [97] (some 1)).1 = 1 ∧
    (cbInsert (cbInsert ⟨none, fun _ => 0⟩ [97] (some 0)).2.1 [97] (some 1)).2.1 =
      (cbInsert ⟨none, fun _ => 0⟩ [97] (some 0)).2.1 ∧
    (cbInsert (cbInsert ⟨none, fun _ => 0⟩ [97] (some 0)).2.1 [97] (some 1)).2.2 =
      [Ev.alloc 1, Ev.cfree 1] :=
  claim_C4 ⟨none, fun _ => 0⟩ trivial [97] (by decide) 0 trivial (by decide) 1
    (by intro h; exact absurd h (by decide))

/-- Counterexample to the original claim C4: the second insertion of the
same key does allocate — the call's event trace begins with an allocator
call (and ends with a C-library `free` of that scratch block), so the
AlreadyPresent path is not allocation-free. -/
theorem claim_C4_cex :
    (cbInsert (cbInsert ⟨none, fun _ => 0⟩ [97] (some 0)).2.1 [97] (some 1)).1 = 1 ∧
    (cbInsert (cbInsert ⟨none, fun _ => 0⟩ [97] (some 0)).2.1 [97] (some 1)).2.2 =
      [Ev.alloc 1, Ev.cfree 1] ∧
    Ev.alloc 1 ∈
      (cbInsert (cbInsert ⟨none, fun _ => 0⟩ [97] (some 0)).2.1 [97] (some 1)).2.2 :=
  ⟨rfl, rfl, by decide⟩

/-- Claim C5: insert atomicity on allocation failure.  If the allocator
call made during insert fails, insert returns AllocationFailed (`ENOMEM`),
performs no release of any block (nothing was allocated), and leaves the
tree exactly as it was. -/
theorem claim_C5 (M : MState) (u : List ℕ) :
    cbInsert M u none = (ENOMEM, M, []) := rfl

/-- Claim C6 (code bug): allocator exclusivity is violated.  The buffer
obtained through the tree's pluggable `malloc` (event `alloc 0`) is
released on deletion through the C library's `free` (event `cfree 0`,
critbit.c line 447), not through the tree's pluggable `free` — and the
AlreadyPresent path of insert likewise releases its scratch buffer with
the C library's `free` (critbit.c line 338). -/
theorem claim_C6 :
    (cbInsert ⟨none, fun _ => 0⟩ [97] (some 0)).2.2 = [Ev.alloc 0] ∧
    (cbDelete (cbInsert ⟨none, fun _ => 0⟩ [97] (some 0)).2.1 [97]).map
      (fun x => x.2.2) = some [Ev.cfree 0] ∧
    (cbInsert (cbInsert ⟨none, fun _ => 0⟩ [97] (some 0)).2.1 [97] (some 1)).2.2 =
      [Ev.alloc 1, Ev.cfree 1] :=
  ⟨rfl, rfl, rfl⟩

/-- Claim C7: path-order invariant.  In every reachable tree, along any
root-to-leaf path the `(offset, divergence)` descriptors of the internal
nodes are strictly increasing in the total order with offset primary and,
at equal offset, the prefix marker before every critical-bit descriptor
and more significant bit positions before less significant ones (the
order `posLt` via the transform `tb`). -/
theorem claim_C7 (M : MState) (hR : Reach M) (t : MTree) (ht : M.tree = some t) :
    PathOrder t := by
  have hWF := reach_WFS hR
  rcases M with ⟨t?, vac⟩
  cases ht
  exact inv_pathOrder t hWF.2.2.2.2.2.1

theorem claim_C7_witness :
    PathOrder (mnode 1 0 253 (mleaf 0 [97]) (mleaf 1 [98])) :=
  claim_C7 _ reach_two_keys _ rfl

/-- Claim C8: direction function contract.  For every legal descriptor
and key the computed direction is 0 or 1; at a critical-bit descriptor it
is the value of the recorded bit of `key[offset]` (the byte taken as zero
past the end of the key); at the prefix marker it is 1 exactly when the
key continues past the offset, so the shorter key lands in child 0. -/
theorem claim_C8 (b ob : ℕ) (hob : validMask ob) (k : List ℕ) (hk : ValidKey k) :
    dirC b ob k ≤ 1 ∧
    (∀ i, i < 8 → ob = 255 - 2 ^ i →
      dirC b ob k = if (getByte k b).testBit i then 1 else 0) ∧
    (ob = PREFIX_MASK → dirC b ob k = if b < k.length then 1 else 0) := by
  refine ⟨dirC_le_one (validMask_le_255 hob) hk, ?_, ?_⟩
  · intro i hi hob'
    rw [hob']
    exact dirC_crit hi hk
  · intro h
    rw [h]
    exact dirC_prefMask hk

theorem claim_C8_witness :
    dirC 0 254 [97] ≤ 1 ∧
    (∀ i, i < 8 → 254 = 255 - 2 ^ i →
      dirC 0 254 [97] = if (getByte [97] 0).testBit i then 1 else 0) ∧
    (254 = PREFIX_MASK → dirC 0 254 [97] = if 0 < [97].length then 1 else 0) :=
  claim_C8 0 254 (Or.inl (by decide)) [97] (by decide)

/-- Claim C9: deletion-salvage assertion validity.  On every reachable
state the delete operation never aborts (the salvage re-descent always
finds the relocated cell, so the assertion guarding it cannot fail), and
whenever the reached leaf holds the sought key and its co-allocated spare
cell is in use as an internal node, that cell lies on the root-to-leaf
search path of the deleted key. -/
theorem claim_C9 (M : MState) (hR : Reach M) (u : List ℕ) (hu : ValidKey u) :
    cbDelete M u ≠ none ∧
    ∀ t, M.tree = some t → (descLeaf t u).2 = u →
      (descLeaf t u).1 ∈ nodeIds t → (descLeaf t u).1 ∈ descPath t u := by
  have hWF := reach_WFS hR
  obtain ⟨r, M', ev, heq, -⟩ := cbDelete_spec M hWF u hu
  refine ⟨by rw [heq]; exact fun h => Option.noConfusion h, ?_⟩
  intro t ht hku hmem
  rcases M with ⟨t?, vac⟩
  cases ht
  obtain ⟨hW1, hW2, hW3, hW4, hW5, hW6, hW7⟩ := hWF
  have hdescpair : descLeaf t u = ((descLeaf t u).1, u) :=
    Prod.ext_iff.2 ⟨rfl, hku⟩
  have hULmem : ((descLeaf t u).1, u) ∈ leaves t :=
    hdescpair ▸ descLeaf_mem_leaves t u
  have hkeyU : keyAt t (descLeaf t u).1 = some u :=
    mem_leaves_keyAt t _ u hW2 hULmem
  exact hW7 (descLeaf t u).1 hmem u hkeyU

theorem claim_C9_witness :
    cbDelete (cbInsert ⟨none, fun _ => 0⟩ [97] (some 0)).2.1 [97] ≠ none ∧
    ∀ t, ((cbInsert ⟨none, fun _ => 0⟩ [97] (some 0)).2.1).tree = some t →
      (descLeaf t [97]).2 = [97] →
      (descLeaf t [97]).1 ∈ nodeIds t → (descLeaf t [97]).1 ∈ descPath t [97] :=
  claim_C9 _ (Reach.ins (Reach.empty (fun _ => 0)) (by decide) trivial rfl)
    [97] (by decide)

/-- Claim C10: vacancy-marker invariant.  In every reachable tree, a
leaf's co-allocated spare cell reads `UNUSED_NODE` exactly when it is not
linked into the tree as an internal node, and every linked internal node
carries a legal descriptor (a critical-bit mask or the prefix marker),
never `UNUSED_NODE`. -/
theorem claim_C10 (M : MState) (hR : Reach M) (t : MTree) (ht : M.tree = some t) :
    (∀ i ∈ leafIds t, (cellOb M i = UNUSED_NODE ↔ i ∉ nodeIds t)) ∧
    ∀ i ∈ nodeIds t, ∃ ob, findNodeOb t i = some ob ∧ validMask ob ∧
      ob ≠ UNUSED_NODE := by
  have hWF := reach_WFS hR
  rcases M with ⟨t?, vac⟩
  cases ht
  refine ⟨fun i hi => cellOb_unused_iff hWF hi, fun i hi => ?_⟩
  have hs := findNodeOb_isSome t i hi
  obtain ⟨ob, hob⟩ := Option.isSome_iff_exists.1 hs
  have hv := findNodeOb_valid t hWF.2.2.2.2.2.1 i ob hob
  exact ⟨ob, hob, hv, validMask_ne_unused hv⟩

theorem claim_C10_witness :
    (∀ i ∈ leafIds (mnode 1 0 253 (mleaf 0 [97]) (mleaf 1 [98])),
      (cellOb (cbInsert (cbInsert ⟨none, fun _ => 0⟩ [97] (some 0)).2.1
          [98] (some 1)).2.1 i = UNUSED_NODE ↔
        i ∉ nodeIds (mnode 1 0 253 (mleaf 0 [97]) (mleaf 1 [98])))) ∧
    ∀ i ∈ nodeIds (mnode 1 0 253 (mleaf 0 [97]) (mleaf 1 [98])),
      ∃ ob, findNodeOb (mnode 1 0 253 (mleaf 0 [97]) (mleaf 1 [98])) i = some ob ∧
        validMask ob ∧ ob ≠ UNUSED_NODE :=
  claim_C10 _ reach_two_keys _ rfl

end Critbit
